import Mathlib

/-!
Verification development for the `json-data-cache` crate
(`src/json-data-cache/src/lib.rs`, `src/json-data-cache/src/json_serializer.rs`).

Shallow embedding conventions:
* Rust `serde_json::Value` is embedded as `JValue`.  Objects are
  insertion-ordered association lists (the crate relies on insertion-order
  preservation of the underlying map), arrays are lists.
* All Rust strings are embedded as byte lists (`Str := List Nat`), since the
  serializer's ranges are byte ranges.  UTF-8 continuation bytes are >= 0x80,
  so byte-level splitting on ASCII delimiters ('.', '/', '~') coincides with
  Rust's char-level splitting.
* `serde_json` numbers are embedded by their textual rendering (the bytes of
  `number.to_string()`), which is all the crate ever uses of them.
* Fallible external components (`AhoCorasick::new`, the regex engine) are
  embedded through explicit parameters describing their outcome.
-/

/-- Byte strings: each element is one byte of a Rust `String`/`Vec<u8>`. -/
abbrev Str := List Nat

/-- ASCII string literal to bytes (only used with pure-ASCII literals,
where the char code equals the byte). -/
def ascii (s : String) : Str := s.data.map Char.toNat

/-- Embedding of `serde_json::Value`. -/
inductive JValue where
  | jnull : JValue
  | jbool : Bool → JValue
  /-- number, carried as the bytes of its textual form (`Number::to_string`) -/
  | jnum : Str → JValue
  /-- string, carried as its raw (unescaped) UTF-8 bytes -/
  | jstr : Str → JValue
  | jarr : List JValue → JValue
  | jobj : List (Str × JValue) → JValue

/-- `Value::is_object`. -/
def JValue.isObj : JValue → Bool
  | .jobj _ => true
  | _ => false

/-- `Value::is_array`. -/
def JValue.isArr : JValue → Bool
  | .jarr _ => true
  | _ => false

/-- `Value::is_null`. -/
def JValue.isNull : JValue → Bool
  | .jnull => true
  | _ => false

def JValue.isStr : JValue → Bool
  | .jstr _ => true
  | _ => false

/-- First-occurrence lookup in an association list
(`serde_json::Map::get` / `HashMap::get`). -/
def mapLookup {α : Type} (m : List (Str × α)) (k : Str) : Option α :=
  match m with
  | [] => none
  | (k', v) :: rest => if k' = k then some v else mapLookup rest k

/-- Insert-or-overwrite in an association list, keeping the position of an
existing key and appending a fresh key at the end.  This is the behaviour of
both `HashMap::insert` and insertion-ordered `serde_json::Map::insert` /
`Entry::or_insert`. -/
def mapSet {α : Type} (m : List (Str × α)) (k : Str) (v : α) : List (Str × α) :=
  match m with
  | [] => [(k, v)]
  | (k', v') :: rest => if k' = k then (k, v) :: rest else (k', v') :: mapSet rest k v

/-- Key removal (`Map::remove`).  Keys are unique in every map the crate
builds, so removing the first occurrence is faithful. -/
def mapRemove {α : Type} (m : List (Str × α)) (k : Str) : List (Str × α) :=
  match m with
  | [] => []
  | (k', v') :: rest => if k' = k then rest else (k', v') :: mapRemove rest k

/-! ### JSON escaping and compact encoding (serde_json `to_string`) -/

/-- One byte of serde_json's string escaping: `"` and `\` get a backslash,
the named control escapes are `\b \t \n \f \r`, remaining control bytes
become `\u00XX`, everything else (including UTF-8 continuation bytes)
passes through. -/
def escapeByte (b : Nat) : Str :=
  if b = 0x22 then [0x5C, 0x22]
  else if b = 0x5C then [0x5C, 0x5C]
  else if b = 0x08 then [0x5C, 0x62]
  else if b = 0x09 then [0x5C, 0x74]
  else if b = 0x0A then [0x5C, 0x6E]
  else if b = 0x0C then [0x5C, 0x66]
  else if b = 0x0D then [0x5C, 0x72]
  else if b < 0x20 then
    [0x5C, 0x75, 0x30, 0x30, hexDigit (b / 16), hexDigit (b % 16)]
  else [b]
where
  hexDigit (n : Nat) : Nat := if n < 10 then 0x30 + n else 0x61 + (n - 10)

/-- serde_json escaping of a whole string body (no surrounding quotes). -/
def escapeStr : Str → Str
  | [] => []
  | b :: bs => escapeByte b ++ escapeStr bs

/-- `Value::String(s).to_string()`: quoted, escaped. -/
def encodeString (s : Str) : Str := 0x22 :: escapeStr s ++ [0x22]

/-- Decimal rendering of a `usize` (array indices in paths). -/
def natToBytes (n : Nat) : Str := (Nat.toDigits 10 n).map Char.toNat

mutual
/-- Compact JSON encoding, `serde_json::to_string`. -/
def jsonEncode : JValue → Str
  | .jnull => ascii "null"
  | .jbool b => if b then ascii "true" else ascii "false"
  | .jnum s => s
  | .jstr s => encodeString s
  | .jarr xs => 0x5B :: encodeItems true xs ++ [0x5D]
  | .jobj m => 0x7B :: encodeMembers true m ++ [0x7D]

/-- Object body: members in order, comma-separated (`first` tracks whether a
comma is still owed, mirroring the serializer's `idx > 0` test). -/
def encodeMembers : Bool → List (Str × JValue) → Str
  | _, [] => []
  | first, (k, v) :: rest =>
      (if first then [] else [0x2C]) ++ encodeString k ++ [0x3A] ++ jsonEncode v
        ++ encodeMembers false rest

/-- Array body: items in order, comma-separated. -/
def encodeItems : Bool → List JValue → Str
  | _, [] => []
  | first, v :: rest =>
      (if first then [] else [0x2C]) ++ jsonEncode v ++ encodeItems false rest
end

example : jsonEncode (.jobj [(ascii "a", .jnum (ascii "1")), (ascii "b", .jstr (ascii "x"))])
    = ascii "\x7b\x22a\x22:1,\x22b\x22:\x22x\x22\x7d" := by decide

/-! ### The dual serializer (`json_serializer.rs`) -/

/-- `KeyValueRange`: half-open byte range `[start, stop)` into a buffer
(the Rust field `end` is a Lean keyword, hence `stop`). -/
structure KeyValueRange where
  start : Nat
  stop : Nat
  deriving DecidableEq, Repr

/-- `SerializedWithKeys`.  The Rust `key_values` is a `HashMap`; it is
embedded as an association list with overwrite-on-insert (`mapSet`), whose
element order is the insertion order.  The Rust `length` field is
initialised to 0 and never written afterwards; it is kept for fidelity. -/
structure SerializedWithKeys where
  data : Str
  key_values : List (Str × KeyValueRange)
  length : Nat
  deriving DecidableEq, Repr

/-- `JsonLength`: `inner` excludes a string's surrounding quotes,
`outer` includes them; equal for every other node kind. -/
structure JsonLength where
  inner : Nat
  outer : Nat
  deriving DecidableEq, Repr

/-- The serializer state threaded through `rec_serialize`: the single- and
(optional) double-escaped outputs, plus `uf`, a model-only flag that records
whether some `usize` subtraction `x - 2` in the `Value::String` arm was
evaluated with minuend `x < 2` (a usize underflow, which panics in a debug
build; the Lean model continues with truncated subtraction). -/
structure SerState where
  s : SerializedWithKeys
  d : Option SerializedWithKeys
  uf : Bool
  deriving DecidableEq, Repr

/-- Path extension: `if path != "" { path.push('.'); } path.push_str(key)`. -/
def joinPath (path k : Str) : Str :=
  (if path = [] then [] else path ++ [0x2E]) ++ k

/-- Append bytes to the single-escaped buffer. -/
def pushS (st : SerState) (bs : Str) : SerState :=
  { st with s := { st.s with data := st.s.data ++ bs } }

/-- Append bytes to the double-escaped buffer, if present. -/
def pushD (st : SerState) (bs : Str) : SerState :=
  { st with d := st.d.map fun ds => { ds with data := ds.data ++ bs } }

/-- Record a range in the single-escaped index (`HashMap::insert`). -/
def recordS (st : SerState) (p : Str) (r : KeyValueRange) : SerState :=
  { st with s := { st.s with key_values := mapSet st.s.key_values p r } }

/-- Record a range in the double-escaped index, if present. -/
def recordD (st : SerState) (p : Str) (r : KeyValueRange) : SerState :=
  { st with d := st.d.map fun ds => { ds with key_values := mapSet ds.key_values p r } }

/-- The scalar arms of `rec_serialize` (null / bool / number): emit the
textual form into both buffers, lengths are identical on both sides. -/
def serScalar (st : SerState) (ret : Str) : SerState × JsonLength × JsonLength :=
  (pushD (pushS st ret) ret, ⟨ret.length, ret.length⟩, ⟨ret.length, ret.length⟩)

/-- The part of one object-member iteration before the recursive child
call (lines 157-185): the separating comma for `idx > 0`, the serialized
key and colon on the single side, and -- when the double buffer exists --
the doubly-serialized key (`Value::String(key_serialized).to_string()`
minus its outer quotes, i.e. `escapeStr keySer`) with its comma and colon.
Returns the state together with the updated `scml` and `dcml`. -/
def memberPre (key : Str) (st : SerState) (idx scml dcml : Nat) :
    SerState × Nat × Nat :=
  let keySer := encodeString key
  let st1 := if idx > 0 then pushS st [0x2C] else st
  let scml1 := if idx > 0 then scml + 1 else scml
  let st2 := pushS st1 (keySer ++ [0x3A])
  let scml2 := scml1 + keySer.length + 1
  let keyDbl := escapeStr keySer
  let st3 := match st2.d with
    | some _ =>
        let st' := if idx > 0 then pushD st2 [0x2C] else st2
        pushD st' (keyDbl ++ [0x3A])
    | none => st2
  let dcml1 := match st2.d with
    | some _ => (if idx > 0 then dcml + 1 else dcml) + keyDbl.length + 1
    | none => dcml
  (st3, scml2, dcml1)

/-- The part of one object-member iteration after the recursive child call
(lines 196-236): bump the single counter by the child's outer length and
record the child's range (strings lose one quote byte per side); when the
double buffer exists, the same on the double side (strings lose two bytes
per side). -/
def memberPost (childPath : Str) (st4 : SerState) (l0 l1 : JsonLength)
    (si di scml2 dcml1 : Nat) : SerState × Nat × Nat :=
  let scml3 := scml2 + l0.outer
  let r0 : KeyValueRange :=
    if l0.inner ≠ l0.outer then ⟨si + scml2 + 1, si + scml3 - 1⟩
    else ⟨si + scml2, si + scml3⟩
  let st5 := recordS st4 childPath r0
  match st5.d with
  | some _ =>
      let dcml2 := dcml1 + l1.outer
      let r1 : KeyValueRange :=
        if l1.inner ≠ l1.outer then ⟨di + dcml1 + 2, di + dcml2 - 2⟩
        else ⟨di + dcml1, di + dcml2⟩
      (recordD st5 childPath r1, scml3, dcml2)
  | none => (st5, scml3, dcml1)

/-- The part of one array-item iteration before the recursive child call
(lines 258-273): the separating comma (on the double side only when that
buffer exists -- note `dcal` is bumped inside the `if let`). -/
def itemPre (st : SerState) (idx scal dcal : Nat) : SerState × Nat × Nat :=
  let st1 := if idx > 0 then pushS st [0x2C] else st
  let scal1 := if idx > 0 then scal + 1 else scal
  let st2 := if idx > 0 then pushD st1 [0x2C] else st1
  let dcal1 := if idx > 0 ∧ st.d.isSome then dcal + 1 else dcal
  (st2, scal1, dcal1)

/-- The part of one array-item iteration after the recursive child call
(lines 284-325): identical range bookkeeping to the object case. -/
def itemPost (childPath : Str) (st3 : SerState) (l0 l1 : JsonLength)
    (si di scal1 dcal1 : Nat) : SerState × Nat × Nat :=
  let scal2 := scal1 + l0.outer
  let r0 : KeyValueRange :=
    if l0.inner ≠ l0.outer then ⟨si + scal1 + 1, si + scal2 - 1⟩
    else ⟨si + scal1, si + scal2⟩
  let st4 := recordS st3 childPath r0
  match st4.d with
  | some _ =>
      let dcal2 := dcal1 + l1.outer
      let r1 : KeyValueRange :=
        if l1.inner ≠ l1.outer then ⟨di + dcal1 + 2, di + dcal2 - 2⟩
        else ⟨di + dcal1, di + dcal2⟩
      (recordD st4 childPath r1, scal2, dcal2)
  | none => (st4, scal2, dcal1)

mutual
/-- `JsonSerializer::rec_serialize`.  `si`/`di` are `serialized_index` and
`double_serialized_index`; the returned pair of `JsonLength`s is the length
of the newly serialized element in each buffer. -/
def recSerialize (value : JValue) (path : Str) (st : SerState) (si di : Nat) :
    SerState × JsonLength × JsonLength :=
  match value with
  | .jnull => serScalar st (ascii "null")
  | .jbool b => serScalar st (if b then ascii "true" else ascii "false")
  | .jnum n => serScalar st n
  | .jstr s =>
      -- single: `Value::String(string).to_string()` (escapes and quotes)
      let ret := encodeString s
      let st1 := pushS st ret
      let len := ret.length
      -- double: stringify once more, then `remove(0)` / `remove(len-1)`
      -- strip the outermost quotes; the net effect is `escapeStr ret`.
      let dslen := match st.d with
        | some _ => (escapeStr ret).length
        | none => 0
      let st2 := match st1.d with
        | some _ => pushD st1 (escapeStr ret)
        | none => st1
      -- `(len-2, len)` and `(double_serialized_len-2, double_serialized_len)`:
      -- usize subtractions; `uf` records a minuend below 2.
      let st3 := { st2 with uf := st2.uf || decide (len < 2) || decide (dslen < 2) }
      (st3, ⟨len - 2, len⟩, ⟨dslen - 2, dslen⟩)
  | .jobj m =>
      let st1 := pushD (pushS st [0x7B]) [0x7B]
      let r := recSerializeMembers m path st1 si di 0 1 1
      -- closing brace: emitted to both buffers, both counters bumped
      -- unconditionally (lines 241-246).
      let st3 := pushD (pushS r.1 [0x7D]) [0x7D]
      (st3, ⟨r.2.1 + 1, r.2.1 + 1⟩, ⟨r.2.2 + 1, r.2.2 + 1⟩)
  | .jarr xs =>
      let st1 := pushD (pushS st [0x5B]) [0x5B]
      let r := recSerializeItems xs path st1 si di 0 1 1
      -- closing bracket: the double-side counter is bumped only when the
      -- double buffer exists (lines 330-335).
      let st3 := pushD (pushS r.1 [0x5D]) [0x5D]
      let dcal' := if r.1.d.isSome then r.2.2 + 1 else r.2.2
      (st3, ⟨r.2.1 + 1, r.2.1 + 1⟩, ⟨dcal', dcal'⟩)
/-- One iteration of the member loop of the `Value::Object` arm
(lines 157-240), for the member `(key, val)` at position `idx`;
`scml`/`dcml` are `serialized_current_map_length` and its double twin:
emit separators and key, serialize the child, record its ranges.
Returns the state and both counters after this member. -/
def memberStep (key : Str) (val : JValue) (path : Str) (st : SerState)
    (si di idx scml dcml : Nat) : SerState × Nat × Nat :=
  let p := memberPre key st idx scml dcml
  let c := recSerialize val (joinPath path key) p.1 (si + p.2.1) (di + p.2.2)
  memberPost (joinPath path key) c.1 c.2.1 c.2.2 si di p.2.1 p.2.2

/-- The member loop of the `Value::Object` arm: `memberStep` folded over the
members (written out so the recursion is structural). -/
def recSerializeMembers (l : List (Str × JValue)) (path : Str) (st : SerState)
    (si di : Nat) (idx scml dcml : Nat) : SerState × Nat × Nat :=
  match l with
  | [] => (st, scml, dcml)
  | (key, val) :: rest =>
      let p := memberPre key st idx scml dcml
      let c := recSerialize val (joinPath path key) p.1 (si + p.2.1) (di + p.2.2)
      let r := memberPost (joinPath path key) c.1 c.2.1 c.2.2 si di p.2.1 p.2.2
      recSerializeMembers rest path r.1 si di (idx + 1) r.2.1 r.2.2

/-- One iteration of the item loop of the `Value::Array` arm
(lines 258-329), for the item `val` at index `idx`. -/
def itemStep (val : JValue) (path : Str) (st : SerState)
    (si di idx scal dcal : Nat) : SerState × Nat × Nat :=
  let p := itemPre st idx scal dcal
  let c := recSerialize val (joinPath path (natToBytes idx)) p.1 (si + p.2.1) (di + p.2.2)
  itemPost (joinPath path (natToBytes idx)) c.1 c.2.1 c.2.2 si di p.2.1 p.2.2

/-- The item loop of the `Value::Array` arm: `itemStep` folded over the
items (written out so the recursion is structural). -/
def recSerializeItems (l : List JValue) (path : Str) (st : SerState)
    (si di : Nat) (idx scal dcal : Nat) : SerState × Nat × Nat :=
  match l with
  | [] => (st, scal, dcal)
  | val :: rest =>
      let p := itemPre st idx scal dcal
      let c := recSerialize val (joinPath path (natToBytes idx)) p.1 (si + p.2.1) (di + p.2.2)
      let r := itemPost (joinPath path (natToBytes idx)) c.1 c.2.1 c.2.2 si di p.2.1 p.2.2
      recSerializeItems rest path r.1 si di (idx + 1) r.2.1 r.2.2
end

/-- Unfolding the member loop one step through `memberStep`. -/
theorem recSerializeMembers_cons (key : Str) (val : JValue)
    (rest : List (Str × JValue)) (path : Str) (st : SerState)
    (si di idx scml dcml : Nat) :
    recSerializeMembers ((key, val) :: rest) path st si di idx scml dcml
      = recSerializeMembers rest path
          (memberStep key val path st si di idx scml dcml).1 si di (idx + 1)
          (memberStep key val path st si di idx scml dcml).2.1
          (memberStep key val path st si di idx scml dcml).2.2 := rfl

/-- Unfolding the item loop one step through `itemStep`. -/
theorem recSerializeItems_cons (val : JValue) (rest : List JValue) (path : Str)
    (st : SerState) (si di idx scal dcal : Nat) :
    recSerializeItems (val :: rest) path st si di idx scal dcal
      = recSerializeItems rest path
          (itemStep val path st si di idx scal dcal).1 si di (idx + 1)
          (itemStep val path st si di idx scal dcal).2.1
          (itemStep val path st si di idx scal dcal).2.2 := rfl

/-- `JsonSerializer::serialize`: fresh buffers (length field 0, never
updated), the whole walk starts with the empty path and both indices 0. -/
def serialize (value : JValue) (double_serialize : Bool) : SerState :=
  let st0 : SerState :=
    { s := ⟨[], [], 0⟩
      d := if double_serialize then some ⟨[], [], 0⟩ else none
      uf := false }
  (recSerialize value [] st0 0 0).1

/-! ### PathTree mutation (`lib.rs`: `insert_rec`, `merge_rec`) -/

/-- `path.splitn(2, '.')`: the part before the first `.` and, when a dot
exists, the remainder after it. -/
def splitFirstDot : Str → Str × Option Str
  | [] => ([], none)
  | b :: bs =>
      if b = 0x2E then ([], some bs)
      else
        let (k, r) := splitFirstDot bs
        (b :: k, r)

theorem splitFirstDot_rest_lt : ∀ (p k rest : Str),
    splitFirstDot p = (k, some rest) → rest.length < p.length := by
  intro p
  induction p with
  | nil => intro k rest h; simp [splitFirstDot] at h
  | cons b bs ih =>
      intro k rest h
      by_cases hb : b = 0x2E
      · simp [splitFirstDot, hb] at h
        simp [h.2]
      · simp only [splitFirstDot, if_neg hb] at h
        obtain ⟨h1, h2⟩ := Prod.mk.injEq .. ▸ h
        cases hsplit : splitFirstDot bs with
        | mk k' r' =>
            rw [hsplit] at h1 h2
            simp at h1 h2
            subst h2
            have := ih k' rest hsplit
            simp
            omega

mutual
/-- `DataCache::merge_rec`.  Object-into-object merges key by key
(`null` deletes the key, otherwise recurse into
`a.entry(k).or_insert(Null)`); every other combination replaces the
target with the source (`*a = b`). -/
def mergeRec (a : JValue) (b : JValue) : JValue :=
  match a, b with
  | .jobj ma, .jobj mb => .jobj (mergeList ma mb)
  | _, _ => b

def mergeList (ma : List (Str × JValue)) (mb : List (Str × JValue)) :
    List (Str × JValue) :=
  match mb with
  | [] => ma
  | (k, v) :: rest =>
      if v.isNull then mergeList (mapRemove ma k) rest
      else mergeList (mapSet ma k (mergeRec ((mapLookup ma k).getD .jnull) v)) rest
end

/-- `DataCache::insert_rec`.  Terminates because the remaining path after the
first dot is strictly shorter. -/
def insertRec (parent : JValue) (path : Str) (value : JValue) : JValue :=
  match h : splitFirstDot path with
  | (currentKey, none) =>
      -- one-part path
      match parent with
      | .jarr p => if currentKey = [] then .jarr (p ++ [value]) else parent
      | .jobj po =>
          if currentKey ≠ [] then
            -- `entry(key).or_insert(json!({}))` then `merge_rec` into it
            let newCurrent := (mapLookup po currentKey).getD (.jobj [])
            .jobj (mapSet po currentKey (mergeRec newCurrent value))
          else parent
      | _ => parent
  | (currentKey, some remainingPath) =>
      match parent with
      | .jobj po =>
          if remainingPath.contains 0x2E then
            -- deeper nesting: `entry(key).and_modify(recurse).or_insert_with(...)`
            match mapLookup po currentKey with
            | some existing =>
                .jobj (mapSet po currentKey (insertRec existing remainingPath value))
            | none =>
                .jobj (mapSet po currentKey (insertRec (.jobj []) remainingPath value))
          else if remainingPath = [] then
            -- trailing dot: coerce to array, append
            let arr0 := match mapLookup po currentKey with
              | some (.jarr xs) => xs
              | some _ => []          -- forced conversion to array
              | none => []
            .jobj (mapSet po currentKey (.jarr (arr0 ++ [value])))
          else
            -- exactly one more segment: coerce the entry to an object, then
            -- `entry(remaining).or_insert({})`; merge when both sides are
            -- objects, otherwise plain insert.
            let obj0 : List (Str × JValue) := match mapLookup po currentKey with
              | some (.jobj mo) => mo  -- keep existing object
              | some _ => []           -- forced conversion to object
              | none => []
            let previous := (mapLookup obj0 remainingPath).getD (.jobj [])
            let obj1 := mapSet obj0 remainingPath previous
            let objFinal :=
              if previous.isObj ∧ value.isObj then
                mapSet obj1 remainingPath (mergeRec previous value)
              else mapSet obj1 remainingPath value
            .jobj (mapSet po currentKey (.jobj objFinal))
      | _ => parent
termination_by path.length
decreasing_by
  all_goals exact splitFirstDot_rest_lt path currentKey remainingPath h

/-! ### `DataCache` state and operations (`lib.rs`) -/

/-- The compiled Aho-Corasick automaton is external to the crate; it is
embedded as the list of its patterns. -/
abbrev ACModel := List Str

/-- `DataCacheSerializedData` (all fields `Default`-initialised). -/
structure DataCacheSerializedData where
  is_built : Bool := false
  ac : Option ACModel := none
  serialized : Option SerializedWithKeys := none
  double_serialized : Option SerializedWithKeys := none
  replacements : List Str := []
  deriving DecidableEq, Repr

/-- `DataCache`: the root value, the reserved-name option, and the cached
serialized data. -/
structure DataCacheS where
  root : JValue
  reserved : List Str
  cache : DataCacheSerializedData

/-- `DataCache::new`: empty object root, default (unbuilt) cache. -/
def DataCacheS.new (reserved : List Str) : DataCacheS :=
  { root := .jobj [], reserved := reserved, cache := {} }

/-- `DataCache::on_after_insert`: reset the cached serialized data. -/
def onAfterInsert (c : DataCacheS) : DataCacheS :=
  { c with cache := {} }

/-- `DataCache::insert`. -/
def dcInsert (c : DataCacheS) (path : Str) (value : JValue) : DataCacheS :=
  onAfterInsert { c with root := insertRec c.root path value }

/-- `DataCache::insert_bulk`: all insertions, one cache reset at the end. -/
def dcInsertBulk (c : DataCacheS) (values : List (Str × JValue)) : DataCacheS :=
  onAfterInsert
    { c with root := values.foldl (fun r pv => insertRec r pv.1 pv.2) c.root }

/-- `DataCache::merge`.  Note: the Rust method mutates the root and does
*not* call `on_after_insert`. -/
def dcMerge (c : DataCacheS) (other : JValue) : DataCacheS :=
  { c with root := mergeRec c.root other }

/-! ### `DataCache::get` (serde_json pointer resolution) -/

/-- `target.replace(".", "/")` on bytes. -/
def replaceDotSlash (s : Str) : Str :=
  s.map fun b => if b = 0x2E then 0x2F else b

/-- `str::split(sep)`: always at least one (possibly empty) piece. -/
def splitOnByte (sep : Nat) : Str → List Str
  | [] => [[]]
  | c :: rest =>
      if c = sep then [] :: splitOnByte sep rest
      else
        match splitOnByte sep rest with
        | [] => [[c]]
        | t :: ts => (c :: t) :: ts

/-- Leftmost, non-overlapping replacement of the two-byte pattern
`[p1, p2]` by `r` (`str::replace` for the `~1` / `~0` pointer escapes). -/
def replacePair (p1 p2 : Nat) (r : Str) : Str → Str
  | [] => []
  | [c] => [c]
  | c1 :: c2 :: rest =>
      if c1 = p1 ∧ c2 = p2 then r ++ replacePair p1 p2 r rest
      else c1 :: replacePair p1 p2 r (c2 :: rest)

/-- serde_json's reference-token unescaping:
`token.replace("~1", "/").replace("~0", "~")`. -/
def unescapeToken (t : Str) : Str :=
  replacePair 0x7E 0x30 [0x7E] (replacePair 0x7E 0x31 [0x2F] t)

/-- serde_json's array-index parsing: rejects a leading `+`, rejects a
leading zero unless the token is exactly `0`, then parses the decimal
digits.  (Rust additionally fails on `usize` overflow, which the unbounded
`Nat` model ignores; no claim depends on 20-digit indices.) -/
def parseIndex (t : Str) : Option Nat :=
  match t with
  | [] => none
  | c :: rest =>
      if c = 0x2B then none
      else if c = 0x30 ∧ rest ≠ [] then none
      else if (c :: rest).all (fun b => 0x30 ≤ b ∧ b ≤ 0x39) then
        some ((c :: rest).foldl (fun acc b => acc * 10 + (b - 0x30)) 0)
      else none

/-- The `try_fold` inside `Value::pointer`: object tokens via `Map::get`,
array tokens via `parse_index` + `get`, anything else fails. -/
def ptrFold : JValue → List Str → Option JValue
  | v, [] => some v
  | .jobj m, t :: ts => (mapLookup m t).bind (fun v => ptrFold v ts)
  | .jarr xs, t :: ts => (parseIndex t).bind (fun i => (xs.get? i).bind (fun v => ptrFold v ts))
  | _, _ :: _ => none

/-- `Value::pointer`. -/
def pointerResolve (v : JValue) (pointer : Str) : Option JValue :=
  if pointer = [] then some v
  else if pointer.head? ≠ some 0x2F then none
  else ptrFold v (((splitOnByte 0x2F pointer).drop 1).map unescapeToken)

/-- `DataCache::get`: `format!("/{}", target.replace(".", "/"))` resolved
as a JSON pointer. -/
def dcGet (c : DataCacheS) (target : Str) : Option JValue :=
  pointerResolve c.root (0x2F :: replaceDotSlash target)

/-! ### `as_string_values_map` (`lib.rs` lines 182-225) -/

/-- `build_prefix`: append a `.` to a non-empty path. -/
def buildPrefix (path : Str) : Str :=
  if path.length > 0 then path ++ [0x2E] else []

mutual
/-- `DataCache::as_string_values_map_rec`.  The `HashMap` accumulator is an
association list with `mapSet` overwrite.  Containers insert their compact
JSON re-encoding after recursing into the children; an object skips its own
entry when its path is empty. -/
def asStrRec (map : List (Str × Str)) (parent : JValue) (currentPath : Str) :
    List (Str × Str) :=
  match parent with
  | .jarr a =>
      let m1 := asStrRecItems map a currentPath 0
      mapSet m1 currentPath (jsonEncode (.jarr a))
  | .jobj o =>
      let m1 := asStrRecMembers map o currentPath
      if currentPath.length > 0 then mapSet m1 currentPath (jsonEncode (.jobj o))
      else m1
  | .jstr v => mapSet map currentPath v
  | .jnum v => mapSet map currentPath v
  | .jbool v => mapSet map currentPath (if v then ascii "true" else ascii "false")
  | .jnull => mapSet map currentPath (ascii "null")

def asStrRecMembers (map : List (Str × Str)) (o : List (Str × JValue))
    (currentPath : Str) : List (Str × Str) :=
  match o with
  | [] => map
  | (k, v) :: rest =>
      asStrRecMembers (asStrRec map v (buildPrefix currentPath ++ k)) rest currentPath

def asStrRecItems (map : List (Str × Str)) (a : List JValue)
    (currentPath : Str) (idx : Nat) : List (Str × Str) :=
  match a with
  | [] => map
  | el :: rest =>
      asStrRecItems (asStrRec map el (buildPrefix currentPath ++ natToBytes idx))
        rest currentPath (idx + 1)
end

/-- `DataCache::as_string_values_map`. -/
def asStringValuesMap (root : JValue) : List (Str × Str) :=
  asStrRec [] root []

/-! ### `match_regex` (`lib.rs` lines 235-258)

The regex engine is external; the loop over `re.capture_names()` is embedded
with the engine's outcome as data: `names` is the list that
`re.capture_names()` yields for a successful match (inherent order of the
pattern's groups, `none` for unnamed ones), and `captured name` is
`captures.name(name)` — `some` text exactly when the group participated in
the match. -/

/-- The error message built by the reserved-name check. -/
def reservedErrMsg (name : Str) : Str :=
  ascii "Capturing into the reserved variable " ++ name ++ ascii " is not allowed"

/-- The body of the `Some(captures)` arm: walk the capture names in order;
a reserved name fails immediately (keeping all state mutated so far);
a participating name is inserted via `DataCache::insert`. -/
def matchRegexLoop (c : DataCacheS) (captured : Str → Option Str) :
    List (Option Str) → DataCacheS × Option Str
  | [] => (c, none)
  | none :: rest => matchRegexLoop c captured rest
  | some name :: rest =>
      if name ∈ c.reserved then (c, some (reservedErrMsg name))
      else
        match captured name with
        | some matched => matchRegexLoop (dcInsert c name (.jstr matched)) captured rest
        | none => matchRegexLoop c captured rest

/-! ### `replace_with_data_cache` (`lib.rs` lines 262-312)

`AhoCorasick::new` is external and fallible; it is embedded by a parameter
`acNew` mapping the pattern list to `some` automaton (modelled by its
patterns) or `none` (a `BuildError`, propagated by `?`).  The streaming
substitution itself operates on `io` streams and is not modelled; the claims
below concern the cached generation state. -/

/-- Pattern text for a single-escaped key. -/
def patSingle (key : Str) : Str := 0x7B :: 0x24 :: key ++ [0x7D]

/-- Pattern text for a double-escaped key. -/
def patDouble (key : Str) : Str := 0x7B :: 0x24 :: 0x24 :: key ++ [0x7D]

/-- `&data[range.start..range.end]`. -/
def sliceBytes (data : Str) (start stop : Nat) : Str := (data.take stop).drop start

/-- The generation builder inside `replace_with_data_cache` (the
`!is_built` branch): serialize the current root, store both buffers, build
the pattern / replacement lists, then attempt the automaton build.  On
`BuildError` the `?` operator returns early: the buffers remain stored while
`ac`, `replacements` and `is_built` keep their previous values.  The
returned `Bool` is `true` on `Ok(())`. -/
def replaceWithDataCache (acNew : List Str → Option ACModel) (c : DataCacheS) :
    DataCacheS × Bool :=
  if c.cache.is_built then (c, true)
  else
    let st := serialize c.root true
    let cache1 := { c.cache with serialized := some st.s, double_serialized := st.d }
    let pats1 := st.s.key_values.map fun kr => patSingle kr.1
    let reps1 := st.s.key_values.map fun kr => sliceBytes st.s.data kr.2.start kr.2.stop
    let pats2 := match st.d with
      | some ds => ds.key_values.map fun kr => patDouble kr.1
      | none => []
    let reps2 := match st.d with
      | some ds => ds.key_values.map fun kr => sliceBytes ds.data kr.2.start kr.2.stop
      | none => []
    match acNew (pats1 ++ pats2) with
    | none => ({ c with cache := cache1 }, false)
    | some ac =>
        ({ c with cache :=
            { cache1 with ac := some ac, replacements := reps1 ++ reps2, is_built := true } },
         true)

/-- An always-succeeding automaton builder (the behaviour of
`AhoCorasick::new` on every input the tests exercise). -/
def acAlways : List Str → Option ACModel := fun pats => some pats

/-- An automaton builder that fails (`BuildError`). -/
def acFail : List Str → Option ACModel := fun _ => none

/-! ### Basic lemmas about the state helpers -/

@[simp] theorem pushS_data (st : SerState) (bs : Str) :
    (pushS st bs).s.data = st.s.data ++ bs := rfl
@[simp] theorem pushS_kv (st : SerState) (bs : Str) :
    (pushS st bs).s.key_values = st.s.key_values := rfl
@[simp] theorem pushS_d (st : SerState) (bs : Str) : (pushS st bs).d = st.d := rfl
@[simp] theorem pushS_uf (st : SerState) (bs : Str) : (pushS st bs).uf = st.uf := rfl
@[simp] theorem pushD_s (st : SerState) (bs : Str) : (pushD st bs).s = st.s := rfl
@[simp] theorem pushD_uf (st : SerState) (bs : Str) : (pushD st bs).uf = st.uf := rfl
@[simp] theorem pushD_d_isSome (st : SerState) (bs : Str) :
    (pushD st bs).d.isSome = st.d.isSome := by
  cases h : st.d <;> simp [pushD, h]
@[simp] theorem recordS_data (st : SerState) (p : Str) (r : KeyValueRange) :
    (recordS st p r).s.data = st.s.data := rfl
@[simp] theorem recordS_kv (st : SerState) (p : Str) (r : KeyValueRange) :
    (recordS st p r).s.key_values = mapSet st.s.key_values p r := rfl
@[simp] theorem recordS_d (st : SerState) (p : Str) (r : KeyValueRange) :
    (recordS st p r).d = st.d := rfl
@[simp] theorem recordS_uf (st : SerState) (p : Str) (r : KeyValueRange) :
    (recordS st p r).uf = st.uf := rfl
@[simp] theorem recordD_s (st : SerState) (p : Str) (r : KeyValueRange) :
    (recordD st p r).s = st.s := rfl
@[simp] theorem recordD_uf (st : SerState) (p : Str) (r : KeyValueRange) :
    (recordD st p r).uf = st.uf := rfl
@[simp] theorem recordD_d_isSome (st : SerState) (p : Str) (r : KeyValueRange) :
    (recordD st p r).d.isSome = st.d.isSome := by
  cases h : st.d <;> simp [recordD, h]
@[simp] theorem serScalar_s_data (st : SerState) (ret : Str) :
    (serScalar st ret).1.s.data = st.s.data ++ ret := rfl
@[simp] theorem serScalar_kv (st : SerState) (ret : Str) :
    (serScalar st ret).1.s.key_values = st.s.key_values := rfl
@[simp] theorem serScalar_uf (st : SerState) (ret : Str) :
    (serScalar st ret).1.uf = st.uf := rfl
@[simp] theorem serScalar_d_isSome (st : SerState) (ret : Str) :
    (serScalar st ret).1.d.isSome = st.d.isSome := by
  simp [serScalar]
@[simp] theorem serScalar_l0 (st : SerState) (ret : Str) :
    (serScalar st ret).2.1 = ⟨ret.length, ret.length⟩ := rfl

/-! ### Lemmas about `mapSet` / `mapLookup` -/

theorem mem_mapSet {α : Type} (m : List (Str × α)) (k : Str) (v : α) :
    ∀ e ∈ mapSet m k v, e = (k, v) ∨ e ∈ m := by
  induction m with
  | nil => intro e he; simpa [mapSet] using he
  | cons hd tl ih =>
      intro e he
      obtain ⟨k', v'⟩ := hd
      by_cases hk : k' = k
      · simp [mapSet, hk] at he
        rcases he with he | he
        · left; simp [he]
        · right; simp [he]
      · simp [mapSet, hk] at he
        rcases he with he | he
        · right; simp [he]
        · rcases ih e he with h | h
          · left; exact h
          · right; simp [h]

theorem mapSet_lookup_self {α : Type} (m : List (Str × α)) (k : Str) (v : α)
    (h : mapLookup m k = some v) : mapSet m k v = m := by
  induction m with
  | nil => simp [mapLookup] at h
  | cons hd tl ih =>
      obtain ⟨k', v'⟩ := hd
      by_cases hk : k' = k
      · subst hk
        simp [mapLookup] at h
        simp [mapSet, h]
      · simp [mapLookup, hk] at h
        simp [mapSet, hk, ih h]

theorem mapLookup_mem {α : Type} (m : List (Str × α)) (k : Str) (v : α)
    (h : mapLookup m k = some v) : (k, v) ∈ m := by
  induction m with
  | nil => simp [mapLookup] at h
  | cons hd tl ih =>
      obtain ⟨k', v'⟩ := hd
      by_cases hk : k' = k
      · subst hk
        simp [mapLookup] at h
        simp [h]
      · simp [mapLookup, hk] at h
        simp [ih h]

/-! ### Byte-slice lemmas -/

theorem sliceBytes_append_left (l m : Str) (a b : Nat) (hb : b ≤ l.length) :
    sliceBytes (l ++ m) a b = sliceBytes l a b := by
  simp [sliceBytes, List.take_append_eq_append_take, Nat.sub_eq_zero_of_le hb,
    List.take_of_length_le (List.length_take_le b l) ]

theorem sliceBytes_exact (l m : Str) :
    sliceBytes (l ++ m) l.length (l.length + m.length) = m := by
  simp [sliceBytes, List.take_append_eq_append_take, List.drop_append_eq_append_drop]

theorem sliceBytes_mid (l mid r : Str) :
    sliceBytes (l ++ mid ++ r) l.length (l.length + mid.length) = mid := by
  have : l ++ mid ++ r = (l ++ mid) ++ r := by simp
  rw [this, sliceBytes_append_left _ _ _ _ (by simp), sliceBytes_exact]

/-! ### Paths and subtrees reachable from a value -/

mutual
/-- All `(dotted path, subtree)` pairs the serializer walks, in walk order,
relative to the given parent path: exactly the nodes for which
`rec_serialize` records an index entry. -/
def entriesFrom (path : Str) : JValue → List (Str × JValue)
  | .jobj m => entriesMem path m
  | .jarr xs => entriesItems path xs 0
  | _ => []

def entriesMem (path : Str) : List (Str × JValue) → List (Str × JValue)
  | [] => []
  | (k, c) :: rest =>
      (joinPath path k, c) :: (entriesFrom (joinPath path k) c ++ entriesMem path rest)

def entriesItems (path : Str) : List JValue → Nat → List (Str × JValue)
  | [], _ => []
  | c :: rest, idx =>
      (joinPath path (natToBytes idx), c) ::
        (entriesFrom (joinPath path (natToBytes idx)) c ++ entriesItems path rest (idx + 1))
end

/-- The exact bytes the single-escaped buffer holds for a node at its
recorded range: the escaped string body for string nodes (quotes excluded),
the full compact encoding for everything else. -/
def serForm (v : JValue) : Str :=
  match v with
  | .jstr s => escapeStr s
  | _ => jsonEncode v

/-- A recorded index entry is *good* w.r.t. a buffer and an entry list:
some listed `(path, subtree)` pair has this path, the range is in bounds,
and slicing the buffer yields that subtree's `serForm`. -/
def GoodE (buf : Str) (ents : List (Str × JValue)) (e : Str × KeyValueRange) : Prop :=
  ∃ sub, (e.1, sub) ∈ ents ∧ e.2.stop ≤ buf.length ∧
    sliceBytes buf e.2.start e.2.stop = serForm sub

theorem GoodE_append (buf ext : Str) (ents : List (Str × JValue))
    (e : Str × KeyValueRange) (h : GoodE buf ents e) : GoodE (buf ++ ext) ents e := by
  obtain ⟨sub, hmem, hle, hslice⟩ := h
  exact ⟨sub, hmem, by simp; omega, by rw [sliceBytes_append_left _ _ _ _ hle]; exact hslice⟩

theorem GoodE_mono (buf : Str) (ents ents' : List (Str × JValue))
    (e : Str × KeyValueRange) (hsub : ∀ x ∈ ents, x ∈ ents') (h : GoodE buf ents e) :
    GoodE buf ents' e := by
  obtain ⟨sub, hmem, hle, hslice⟩ := h
  exact ⟨sub, hsub _ hmem, hle, hslice⟩

mutual
/-- Whether a value contains at least one `String` node. -/
def containsString : JValue → Bool
  | .jstr _ => true
  | .jarr xs => containsStringItems xs
  | .jobj m => containsStringMems m
  | _ => false

def containsStringItems : List JValue → Bool
  | [] => false
  | v :: rest => containsString v || containsStringItems rest

def containsStringMems : List (Str × JValue) → Bool
  | [] => false
  | (_, v) :: rest => containsString v || containsStringMems rest
end



/-! ### Buffer correctness of the serializer (single-escaped side) -/

/-- The bytes `memberPre` contributes to the single buffer. -/
def memberPreBytes (idx : Nat) (key : Str) : Str :=
  (if idx == 0 then [] else [0x2C]) ++ encodeString key ++ [0x3A]

/-- The bytes one object member contributes to the single buffer. -/
def memberPiece (idx : Nat) (key : Str) (val : JValue) : Str :=
  memberPreBytes idx key ++ jsonEncode val

/-- The bytes `itemPre` contributes to the single buffer. -/
def itemPreBytes (idx : Nat) : Str :=
  if idx == 0 then [] else [0x2C]

/-- The bytes one array item contributes to the single buffer. -/
def itemPiece (idx : Nat) (val : JValue) : Str :=
  itemPreBytes idx ++ jsonEncode val

theorem memberPre_proj (key : Str) (st : SerState) (idx scml dcml : Nat) :
    (memberPre key st idx scml dcml).1.s.data = st.s.data ++ memberPreBytes idx key ∧
    (memberPre key st idx scml dcml).2.1 = scml + (memberPreBytes idx key).length ∧
    (memberPre key st idx scml dcml).1.s.key_values = st.s.key_values ∧
    (memberPre key st idx scml dcml).1.d.isSome = st.d.isSome ∧
    (memberPre key st idx scml dcml).1.uf = st.uf := by
  by_cases hidx : idx > 0
  · have h0 : (idx == 0) = false := by simp; omega
    cases hd : st.d <;>
      simp [memberPre, hd, hidx, h0, memberPreBytes, pushS, pushD] <;> omega
  · have h0 : idx = 0 := by omega
    subst h0
    cases hd : st.d <;>
      simp [memberPre, hd, memberPreBytes, pushS, pushD] <;> omega

theorem memberPost_proj (cp : Str) (st4 : SerState) (l0 l1 : JsonLength)
    (si di scml2 dcml1 : Nat) :
    (memberPost cp st4 l0 l1 si di scml2 dcml1).1.s.data = st4.s.data ∧
    (memberPost cp st4 l0 l1 si di scml2 dcml1).2.1 = scml2 + l0.outer ∧
    (memberPost cp st4 l0 l1 si di scml2 dcml1).1.s.key_values
      = mapSet st4.s.key_values cp
          (if l0.inner ≠ l0.outer then ⟨si + scml2 + 1, si + (scml2 + l0.outer) - 1⟩
           else ⟨si + scml2, si + (scml2 + l0.outer)⟩) ∧
    (memberPost cp st4 l0 l1 si di scml2 dcml1).1.d.isSome = st4.d.isSome ∧
    (memberPost cp st4 l0 l1 si di scml2 dcml1).1.uf = st4.uf := by
  cases hd : st4.d <;> simp [memberPost, hd, recordS, recordD]

theorem itemPre_proj (st : SerState) (idx scal dcal : Nat) :
    (itemPre st idx scal dcal).1.s.data = st.s.data ++ itemPreBytes idx ∧
    (itemPre st idx scal dcal).2.1 = scal + (itemPreBytes idx).length ∧
    (itemPre st idx scal dcal).1.s.key_values = st.s.key_values ∧
    (itemPre st idx scal dcal).1.d.isSome = st.d.isSome ∧
    (itemPre st idx scal dcal).1.uf = st.uf := by
  by_cases hidx : idx > 0
  · have h0 : (idx == 0) = false := by simp; omega
    cases hd : st.d <;>
      simp [itemPre, hd, hidx, h0, itemPreBytes, pushS, pushD]
  · have h0 : idx = 0 := by omega
    subst h0
    cases hd : st.d <;>
      simp [itemPre, hd, itemPreBytes, pushS, pushD]

theorem itemPost_proj (cp : Str) (st3 : SerState) (l0 l1 : JsonLength)
    (si di scal1 dcal1 : Nat) :
    (itemPost cp st3 l0 l1 si di scal1 dcal1).1.s.data = st3.s.data ∧
    (itemPost cp st3 l0 l1 si di scal1 dcal1).2.1 = scal1 + l0.outer ∧
    (itemPost cp st3 l0 l1 si di scal1 dcal1).1.s.key_values
      = mapSet st3.s.key_values cp
          (if l0.inner ≠ l0.outer then ⟨si + scal1 + 1, si + (scal1 + l0.outer) - 1⟩
           else ⟨si + scal1, si + (scal1 + l0.outer)⟩) ∧
    (itemPost cp st3 l0 l1 si di scal1 dcal1).1.d.isSome = st3.d.isSome ∧
    (itemPost cp st3 l0 l1 si di scal1 dcal1).1.uf = st3.uf := by
  cases hd : st3.d <;> simp [itemPost, hd, recordS, recordD]

mutual
/-- `rec_serialize` appends exactly the compact JSON encoding to the
single-escaped buffer; the returned single length is the encoding's length,
with `inner` two less than `outer` exactly for strings; the presence of the
double buffer is preserved. -/
theorem recSerialize_data (v : JValue) (path : Str) (st : SerState) (si di : Nat) :
    (recSerialize v path st si di).1.s.data = st.s.data ++ jsonEncode v ∧
    (recSerialize v path st si di).2.1.outer = (jsonEncode v).length ∧
    (v.isStr = true → (recSerialize v path st si di).2.1.inner + 2
        = (recSerialize v path st si di).2.1.outer) ∧
    (v.isStr = false → (recSerialize v path st si di).2.1.inner
        = (recSerialize v path st si di).2.1.outer) ∧
    (recSerialize v path st si di).1.d.isSome = st.d.isSome := by
  cases v with
  | jnull => simp [recSerialize, jsonEncode, JValue.isStr, serScalar]
  | jbool b => cases b <;> simp [recSerialize, jsonEncode, JValue.isStr, serScalar]
  | jnum n => simp [recSerialize, jsonEncode, JValue.isStr, serScalar]
  | jstr s =>
      cases hd : st.d <;>
        simp [recSerialize, jsonEncode, JValue.isStr, hd, pushS, pushD, encodeString]
  | jobj m =>
      obtain ⟨c1, c2, c3⟩ := recSerializeMembers_data m path
        (pushD (pushS st [0x7B]) [0x7B]) si di 0 1 1
      simp only [pushD_s, pushS_data, pushD_d_isSome, pushS_d] at c1 c3
      refine ⟨?_, ?_, by simp [recSerialize, JValue.isStr],
        by simp [recSerialize, JValue.isStr], ?_⟩
      · simp [recSerialize, jsonEncode, c1]
      · simp [recSerialize, jsonEncode, c2]; omega
      · simp [recSerialize, c3]
  | jarr xs =>
      obtain ⟨c1, c2, c3⟩ := recSerializeItems_data xs path
        (pushD (pushS st [0x5B]) [0x5B]) si di 0 1 1
      simp only [pushD_s, pushS_data, pushD_d_isSome, pushS_d] at c1 c3
      refine ⟨?_, ?_, by simp [recSerialize, JValue.isStr],
        by simp [recSerialize, JValue.isStr], ?_⟩
      · simp [recSerialize, jsonEncode, c1]
      · simp [recSerialize, jsonEncode, c2]; omega
      · simp [recSerialize, c3]
termination_by (sizeOf v, 3)

theorem memberStep_data (key : Str) (val : JValue) (path : Str) (st : SerState)
    (si di idx scml dcml : Nat) :
    (memberStep key val path st si di idx scml dcml).1.s.data
      = st.s.data ++ memberPiece idx key val ∧
    (memberStep key val path st si di idx scml dcml).2.1
      = scml + (memberPiece idx key val).length ∧
    (memberStep key val path st si di idx scml dcml).1.d.isSome = st.d.isSome := by
  obtain ⟨p1, p2, p3, p4, p5⟩ := memberPre_proj key st idx scml dcml
  obtain ⟨c1, c2, c3, c4, c5⟩ := recSerialize_data val (joinPath path key)
    (memberPre key st idx scml dcml).1 (si + (memberPre key st idx scml dcml).2.1)
    (di + (memberPre key st idx scml dcml).2.2)
  obtain ⟨q1, q2, q3, q4, q5⟩ := memberPost_proj (joinPath path key)
    (recSerialize val (joinPath path key) (memberPre key st idx scml dcml).1
      (si + (memberPre key st idx scml dcml).2.1)
      (di + (memberPre key st idx scml dcml).2.2)).1
    (recSerialize val (joinPath path key) (memberPre key st idx scml dcml).1
      (si + (memberPre key st idx scml dcml).2.1)
      (di + (memberPre key st idx scml dcml).2.2)).2.1
    (recSerialize val (joinPath path key) (memberPre key st idx scml dcml).1
      (si + (memberPre key st idx scml dcml).2.1)
      (di + (memberPre key st idx scml dcml).2.2)).2.2
    si di (memberPre key st idx scml dcml).2.1 (memberPre key st idx scml dcml).2.2
  simp only [memberStep]
  refine ⟨?_, ?_, ?_⟩
  · rw [q1, c1, p1]
    simp [memberPiece]
  · rw [q2, c2, p2]
    simp [memberPiece]
    omega
  · rw [q4, c5, p4]
termination_by (sizeOf val, 4)

theorem recSerializeMembers_data (l : List (Str × JValue)) (path : Str) (st : SerState)
    (si di idx scml dcml : Nat) :
    (recSerializeMembers l path st si di idx scml dcml).1.s.data
      = st.s.data ++ encodeMembers (idx == 0) l ∧
    (recSerializeMembers l path st si di idx scml dcml).2.1
      = scml + (encodeMembers (idx == 0) l).length ∧
    (recSerializeMembers l path st si di idx scml dcml).1.d.isSome = st.d.isSome := by
  cases l with
  | nil => simp [recSerializeMembers, encodeMembers]
  | cons hd rest =>
      obtain ⟨key, val⟩ := hd
      obtain ⟨s1, s2, s3⟩ := memberStep_data key val path st si di idx scml dcml
      obtain ⟨r1, r2, r3⟩ := recSerializeMembers_data rest path
        (memberStep key val path st si di idx scml dcml).1 si di (idx + 1)
        (memberStep key val path st si di idx scml dcml).2.1
        (memberStep key val path st si di idx scml dcml).2.2
      rw [recSerializeMembers_cons]
      refine ⟨?_, ?_, ?_⟩
      · rw [r1, s1]
        simp only [encodeMembers, memberPiece, memberPreBytes]
        cases idx <;> simp
      · rw [r2, s2]
        simp only [encodeMembers, memberPiece, memberPreBytes]
        cases idx <;> simp <;> omega
      · rw [r3, s3]
termination_by (sizeOf l, 5)

theorem itemStep_data (val : JValue) (path : Str) (st : SerState)
    (si di idx scal dcal : Nat) :
    (itemStep val path st si di idx scal dcal).1.s.data
      = st.s.data ++ itemPiece idx val ∧
    (itemStep val path st si di idx scal dcal).2.1
      = scal + (itemPiece idx val).length ∧
    (itemStep val path st si di idx scal dcal).1.d.isSome = st.d.isSome := by
  obtain ⟨p1, p2, p3, p4, p5⟩ := itemPre_proj st idx scal dcal
  obtain ⟨c1, c2, c3, c4, c5⟩ := recSerialize_data val (joinPath path (natToBytes idx))
    (itemPre st idx scal dcal).1 (si + (itemPre st idx scal dcal).2.1)
    (di + (itemPre st idx scal dcal).2.2)
  obtain ⟨q1, q2, q3, q4, q5⟩ := itemPost_proj (joinPath path (natToBytes idx))
    (recSerialize val (joinPath path (natToBytes idx)) (itemPre st idx scal dcal).1
      (si + (itemPre st idx scal dcal).2.1) (di + (itemPre st idx scal dcal).2.2)).1
    (recSerialize val (joinPath path (natToBytes idx)) (itemPre st idx scal dcal).1
      (si + (itemPre st idx scal dcal).2.1) (di + (itemPre st idx scal dcal).2.2)).2.1
    (recSerialize val (joinPath path (natToBytes idx)) (itemPre st idx scal dcal).1
      (si + (itemPre st idx scal dcal).2.1) (di + (itemPre st idx scal dcal).2.2)).2.2
    si di (itemPre st idx scal dcal).2.1 (itemPre st idx scal dcal).2.2
  simp only [itemStep]
  refine ⟨?_, ?_, ?_⟩
  · rw [q1, c1, p1]
    simp [itemPiece]
  · rw [q2, c2, p2]
    simp [itemPiece]
    omega
  · rw [q4, c5, p4]
termination_by (sizeOf val, 4)

theorem recSerializeItems_data (l : List JValue) (path : Str) (st : SerState)
    (si di idx scal dcal : Nat) :
    (recSerializeItems l path st si di idx scal dcal).1.s.data
      = st.s.data ++ encodeItems (idx == 0) l ∧
    (recSerializeItems l path st si di idx scal dcal).2.1
      = scal + (encodeItems (idx == 0) l).length ∧
    (recSerializeItems l path st si di idx scal dcal).1.d.isSome = st.d.isSome := by
  cases l with
  | nil => simp [recSerializeItems, encodeItems]
  | cons val rest =>
      obtain ⟨s1, s2, s3⟩ := itemStep_data val path st si di idx scal dcal
      obtain ⟨r1, r2, r3⟩ := recSerializeItems_data rest path
        (itemStep val path st si di idx scal dcal).1 si di (idx + 1)
        (itemStep val path st si di idx scal dcal).2.1
        (itemStep val path st si di idx scal dcal).2.2
      rw [recSerializeItems_cons]
      refine ⟨?_, ?_, ?_⟩
      · rw [r1, s1]
        simp only [encodeItems, itemPiece, itemPreBytes]
        cases idx <;> simp
      · rw [r2, s2]
        simp only [encodeItems, itemPiece, itemPreBytes]
        cases idx <;> simp <;> omega
      · rw [r3, s3]
termination_by (sizeOf l, 5)
end

/-! ### Index soundness: every recorded range slices to its subtree -/

theorem serForm_of_not_str (val : JValue) (h : val.isStr = false) :
    serForm val = jsonEncode val := by
  cases val <;> simp_all [serForm, JValue.isStr]

/-- The range recorded for a freshly serialized child is good: slicing the
buffer at it returns the child's `serForm`. -/
theorem goodE_new_entry (val : JValue) (pre : Str) (l0 : JsonLength) (cp : Str)
    (ents : List (Str × JValue)) (r : KeyValueRange)
    (hmem : (cp, val) ∈ ents)
    (houter : l0.outer = (jsonEncode val).length)
    (hstr : val.isStr = true → l0.inner + 2 = l0.outer)
    (hnstr : val.isStr = false → l0.inner = l0.outer)
    (hr : r = if l0.inner ≠ l0.outer then ⟨pre.length + 1, pre.length + l0.outer - 1⟩
         else ⟨pre.length, pre.length + l0.outer⟩) :
    GoodE (pre ++ jsonEncode val) ents (cp, r) := by
  cases hvs : val.isStr with
  | false =>
      have hio := hnstr hvs
      rw [if_neg (by omega)] at hr
      refine ⟨val, hmem, ?_, ?_⟩
      · simp [hr]; omega
      · rw [hr, serForm_of_not_str val hvs]
        have : pre.length + l0.outer = pre.length + (jsonEncode val).length := by omega
        rw [this, sliceBytes_exact]
  | true =>
      obtain ⟨s, rfl⟩ : ∃ s, val = .jstr s := by
        cases val <;> simp [JValue.isStr] at hvs <;> exact ⟨_, rfl⟩
      have hio := hstr rfl
      have houter' : l0.outer = (escapeStr s).length + 2 := by
        simpa [jsonEncode, encodeString] using houter
      rw [if_pos (by omega)] at hr
      refine ⟨.jstr s, hmem, ?_, ?_⟩
      · simp [hr, jsonEncode, encodeString]; omega
      · have hsplit : pre ++ jsonEncode (.jstr s)
            = (pre ++ [0x22]) ++ escapeStr s ++ [0x22] := by
          simp [jsonEncode, encodeString]
        have h1 : r.start = (pre ++ [0x22]).length := by simp [hr]
        have h2 : r.stop = (pre ++ [0x22]).length + (escapeStr s).length := by
          simp [hr]; omega
        rw [hsplit, h1, h2, sliceBytes_mid]
        simp [serForm]

mutual
/-- Soundness of the single-escaped index: when the walk starts at buffer
position `si` (= current buffer length), every entry of the resulting index
is either pre-existing or records a range that slices to the `serForm` of a
subtree listed (with its dotted path) in `entriesFrom path v`. -/
theorem recSerialize_sound (v : JValue) (path : Str) (st : SerState) (si di : Nat)
    (H : st.s.data.length = si) :
    ∀ e ∈ (recSerialize v path st si di).1.s.key_values,
      e ∈ st.s.key_values ∨
        GoodE (recSerialize v path st si di).1.s.data (entriesFrom path v) e := by
  cases v with
  | jnull => intro e he; left; simpa [recSerialize, serScalar] using he
  | jbool b => intro e he; left; cases b <;> simpa [recSerialize, serScalar] using he
  | jnum n => intro e he; left; simpa [recSerialize, serScalar] using he
  | jstr s =>
      intro e he; left
      cases hd : st.d <;> simpa [recSerialize, hd, pushS, pushD] using he
  | jobj m =>
      intro e he
      have H1 : (pushD (pushS st [0x7B]) [0x7B]).s.data.length = si + 1 := by
        simp [H]
      have hm := recSerializeMembers_sound m path (pushD (pushS st [0x7B]) [0x7B])
        si di 0 1 1 H1 e (by simpa [recSerialize] using he)
      rcases hm with h | h
      · left; simpa using h
      · right
        have hdata := (recSerializeMembers_data m path (pushD (pushS st [0x7B]) [0x7B])
          si di 0 1 1).1
        have : (recSerialize (.jobj m) path st si di).1.s.data
            = (recSerializeMembers m path (pushD (pushS st [0x7B]) [0x7B]) si di 0 1 1).1.s.data
              ++ [0x7D] := by
          simp [recSerialize]
        rw [this]
        exact GoodE_append _ _ _ _ (by simpa [entriesFrom] using h)
  | jarr xs =>
      intro e he
      have H1 : (pushD (pushS st [0x5B]) [0x5B]).s.data.length = si + 1 := by
        simp [H]
      have hm := recSerializeItems_sound xs path (pushD (pushS st [0x5B]) [0x5B])
        si di 0 1 1 H1 e (by simpa [recSerialize] using he)
      rcases hm with h | h
      · left; simpa using h
      · right
        have : (recSerialize (.jarr xs) path st si di).1.s.data
            = (recSerializeItems xs path (pushD (pushS st [0x5B]) [0x5B]) si di 0 1 1).1.s.data
              ++ [0x5D] := by
          simp [recSerialize]
        rw [this]
        exact GoodE_append _ _ _ _ (by simpa [entriesFrom] using h)
termination_by (sizeOf v, 3)

theorem memberStep_sound (key : Str) (val : JValue) (path : Str) (st : SerState)
    (si di idx scml dcml : Nat) (H : st.s.data.length = si + scml) :
    ∀ e ∈ (memberStep key val path st si di idx scml dcml).1.s.key_values,
      e ∈ st.s.key_values ∨
        GoodE (memberStep key val path st si di idx scml dcml).1.s.data
          ((joinPath path key, val) :: entriesFrom (joinPath path key) val) e := by
  intro e he
  obtain ⟨p1, p2, p3, p4, p5⟩ := memberPre_proj key st idx scml dcml
  have Hc : (memberPre key st idx scml dcml).1.s.data.length
      = si + (memberPre key st idx scml dcml).2.1 := by
    rw [p1, p2]; simp [H]; omega
  obtain ⟨c1, c2, c3, c4, c5⟩ := recSerialize_data val (joinPath path key)
    (memberPre key st idx scml dcml).1 (si + (memberPre key st idx scml dcml).2.1)
    (di + (memberPre key st idx scml dcml).2.2)
  have hc := recSerialize_sound val (joinPath path key)
    (memberPre key st idx scml dcml).1 (si + (memberPre key st idx scml dcml).2.1)
    (di + (memberPre key st idx scml dcml).2.2) Hc
  obtain ⟨q1, q2, q3, q4, q5⟩ := memberPost_proj (joinPath path key)
    (recSerialize val (joinPath path key) (memberPre key st idx scml dcml).1
      (si + (memberPre key st idx scml dcml).2.1)
      (di + (memberPre key st idx scml dcml).2.2)).1
    (recSerialize val (joinPath path key) (memberPre key st idx scml dcml).1
      (si + (memberPre key st idx scml dcml).2.1)
      (di + (memberPre key st idx scml dcml).2.2)).2.1
    (recSerialize val (joinPath path key) (memberPre key st idx scml dcml).1
      (si + (memberPre key st idx scml dcml).2.1)
      (di + (memberPre key st idx scml dcml).2.2)).2.2
    si di (memberPre key st idx scml dcml).2.1 (memberPre key st idx scml dcml).2.2
  rw [show (memberStep key val path st si di idx scml dcml)
      = memberPost (joinPath path key)
          (recSerialize val (joinPath path key) (memberPre key st idx scml dcml).1
            (si + (memberPre key st idx scml dcml).2.1)
            (di + (memberPre key st idx scml dcml).2.2)).1
          (recSerialize val (joinPath path key) (memberPre key st idx scml dcml).1
            (si + (memberPre key st idx scml dcml).2.1)
            (di + (memberPre key st idx scml dcml).2.2)).2.1
          (recSerialize val (joinPath path key) (memberPre key st idx scml dcml).1
            (si + (memberPre key st idx scml dcml).2.1)
            (di + (memberPre key st idx scml dcml).2.2)).2.2
          si di (memberPre key st idx scml dcml).2.1 (memberPre key st idx scml dcml).2.2
      from by simp [memberStep]] at he ⊢
  rw [q3] at he
  rw [q1]
  rcases mem_mapSet _ _ _ e he with hnew | hold
  · -- the entry recorded for this member
    right
    subst hnew
    rw [c1]
    apply goodE_new_entry val ((memberPre key st idx scml dcml).1.s.data)
      _ _ _ _ (by simp) c2 c3 c4
    split <;> (congr 1 <;> omega)
  · -- an older entry: from the child's soundness
    rcases hc e hold with h | h
    · left; rwa [p3] at h
    · right
      rw [c1] at h ⊢
      exact GoodE_mono _ _ _ _ (by intro x hx; simp [hx]) h
termination_by (sizeOf val, 4)

theorem recSerializeMembers_sound (l : List (Str × JValue)) (path : Str) (st : SerState)
    (si di idx scml dcml : Nat) (H : st.s.data.length = si + scml) :
    ∀ e ∈ (recSerializeMembers l path st si di idx scml dcml).1.s.key_values,
      e ∈ st.s.key_values ∨
        GoodE (recSerializeMembers l path st si di idx scml dcml).1.s.data
          (entriesMem path l) e := by
  cases l with
  | nil => intro e he; left; simpa [recSerializeMembers] using he
  | cons hd rest =>
      obtain ⟨key, val⟩ := hd
      intro e he
      obtain ⟨s1, s2, s3⟩ := memberStep_data key val path st si di idx scml dcml
      have H' : (memberStep key val path st si di idx scml dcml).1.s.data.length
          = si + (memberStep key val path st si di idx scml dcml).2.1 := by
        rw [s1, s2]; simp [H]; omega
      have hrest := recSerializeMembers_sound rest path
        (memberStep key val path st si di idx scml dcml).1 si di (idx + 1)
        (memberStep key val path st si di idx scml dcml).2.1
        (memberStep key val path st si di idx scml dcml).2.2 H'
      obtain ⟨r1, _, _⟩ := recSerializeMembers_data rest path
        (memberStep key val path st si di idx scml dcml).1 si di (idx + 1)
        (memberStep key val path st si di idx scml dcml).2.1
        (memberStep key val path st si di idx scml dcml).2.2
      have he' : e ∈ (recSerializeMembers rest path
          (memberStep key val path st si di idx scml dcml).1 si di (idx + 1)
          (memberStep key val path st si di idx scml dcml).2.1
          (memberStep key val path st si di idx scml dcml).2.2).1.s.key_values := by
        rw [recSerializeMembers_cons] at he
        exact he
      have hdata : (recSerializeMembers ((key, val) :: rest) path st si di idx scml dcml).1.s.data
          = (memberStep key val path st si di idx scml dcml).1.s.data
            ++ encodeMembers ((idx + 1) == 0) rest := by
        rw [recSerializeMembers_cons, r1]
      rcases hrest e he' with h | h
      · -- from this member's step
        rcases memberStep_sound key val path st si di idx scml dcml H e h with h2 | h2
        · left; exact h2
        · right
          rw [hdata]
          refine GoodE_mono _ _ _ _ ?_ (GoodE_append _ _ _ _ h2)
          intro x hx
          simp only [List.mem_cons] at hx
          simp [entriesMem]
          tauto
      · -- from the rest of the members
        right
        have hGr : GoodE (recSerializeMembers ((key, val) :: rest) path st si di idx scml dcml).1.s.data
            (entriesMem path rest) e := by
          rw [hdata, ← r1]
          exact h
        refine GoodE_mono _ _ _ _ ?_ hGr
        intro x hx
        simp [entriesMem]
        tauto
termination_by (sizeOf l, 5)

theorem itemStep_sound (val : JValue) (path : Str) (st : SerState)
    (si di idx scal dcal : Nat) (H : st.s.data.length = si + scal) :
    ∀ e ∈ (itemStep val path st si di idx scal dcal).1.s.key_values,
      e ∈ st.s.key_values ∨
        GoodE (itemStep val path st si di idx scal dcal).1.s.data
          ((joinPath path (natToBytes idx), val)
            :: entriesFrom (joinPath path (natToBytes idx)) val) e := by
  intro e he
  obtain ⟨p1, p2, p3, p4, p5⟩ := itemPre_proj st idx scal dcal
  have Hc : (itemPre st idx scal dcal).1.s.data.length
      = si + (itemPre st idx scal dcal).2.1 := by
    rw [p1, p2]; simp [H]; omega
  obtain ⟨c1, c2, c3, c4, c5⟩ := recSerialize_data val (joinPath path (natToBytes idx))
    (itemPre st idx scal dcal).1 (si + (itemPre st idx scal dcal).2.1)
    (di + (itemPre st idx scal dcal).2.2)
  have hc := recSerialize_sound val (joinPath path (natToBytes idx))
    (itemPre st idx scal dcal).1 (si + (itemPre st idx scal dcal).2.1)
    (di + (itemPre st idx scal dcal).2.2) Hc
  obtain ⟨q1, q2, q3, q4, q5⟩ := itemPost_proj (joinPath path (natToBytes idx))
    (recSerialize val (joinPath path (natToBytes idx)) (itemPre st idx scal dcal).1
      (si + (itemPre st idx scal dcal).2.1) (di + (itemPre st idx scal dcal).2.2)).1
    (recSerialize val (joinPath path (natToBytes idx)) (itemPre st idx scal dcal).1
      (si + (itemPre st idx scal dcal).2.1) (di + (itemPre st idx scal dcal).2.2)).2.1
    (recSerialize val (joinPath path (natToBytes idx)) (itemPre st idx scal dcal).1
      (si + (itemPre st idx scal dcal).2.1) (di + (itemPre st idx scal dcal).2.2)).2.2
    si di (itemPre st idx scal dcal).2.1 (itemPre st idx scal dcal).2.2
  rw [show (itemStep val path st si di idx scal dcal)
      = itemPost (joinPath path (natToBytes idx))
          (recSerialize val (joinPath path (natToBytes idx)) (itemPre st idx scal dcal).1
            (si + (itemPre st idx scal dcal).2.1) (di + (itemPre st idx scal dcal).2.2)).1
          (recSerialize val (joinPath path (natToBytes idx)) (itemPre st idx scal dcal).1
            (si + (itemPre st idx scal dcal).2.1) (di + (itemPre st idx scal dcal).2.2)).2.1
          (recSerialize val (joinPath path (natToBytes idx)) (itemPre st idx scal dcal).1
            (si + (itemPre st idx scal dcal).2.1) (di + (itemPre st idx scal dcal).2.2)).2.2
          si di (itemPre st idx scal dcal).2.1 (itemPre st idx scal dcal).2.2
      from by simp [itemStep]] at he ⊢
  rw [q3] at he
  rw [q1]
  rcases mem_mapSet _ _ _ e he with hnew | hold
  · right
    subst hnew
    rw [c1]
    apply goodE_new_entry val ((itemPre st idx scal dcal).1.s.data)
      _ _ _ _ (by simp) c2 c3 c4
    split <;> (congr 1 <;> omega)
  · rcases hc e hold with h | h
    · left; rwa [p3] at h
    · right
      rw [c1] at h ⊢
      exact GoodE_mono _ _ _ _ (by intro x hx; simp [hx]) h
termination_by (sizeOf val, 4)

theorem recSerializeItems_sound (l : List JValue) (path : Str) (st : SerState)
    (si di idx scal dcal : Nat) (H : st.s.data.length = si + scal) :
    ∀ e ∈ (recSerializeItems l path st si di idx scal dcal).1.s.key_values,
      e ∈ st.s.key_values ∨
        GoodE (recSerializeItems l path st si di idx scal dcal).1.s.data
          (entriesItems path l idx) e := by
  cases l with
  | nil => intro e he; left; simpa [recSerializeItems] using he
  | cons val rest =>
      intro e he
      obtain ⟨s1, s2, s3⟩ := itemStep_data val path st si di idx scal dcal
      have H' : (itemStep val path st si di idx scal dcal).1.s.data.length
          = si + (itemStep val path st si di idx scal dcal).2.1 := by
        rw [s1, s2]; simp [H]; omega
      have hrest := recSerializeItems_sound rest path
        (itemStep val path st si di idx scal dcal).1 si di (idx + 1)
        (itemStep val path st si di idx scal dcal).2.1
        (itemStep val path st si di idx scal dcal).2.2 H'
      obtain ⟨r1, _, _⟩ := recSerializeItems_data rest path
        (itemStep val path st si di idx scal dcal).1 si di (idx + 1)
        (itemStep val path st si di idx scal dcal).2.1
        (itemStep val path st si di idx scal dcal).2.2
      have he' : e ∈ (recSerializeItems rest path
          (itemStep val path st si di idx scal dcal).1 si di (idx + 1)
          (itemStep val path st si di idx scal dcal).2.1
          (itemStep val path st si di idx scal dcal).2.2).1.s.key_values := by
        rw [recSerializeItems_cons] at he
        exact he
      have hdata : (recSerializeItems (val :: rest) path st si di idx scal dcal).1.s.data
          = (itemStep val path st si di idx scal dcal).1.s.data
            ++ encodeItems ((idx + 1) == 0) rest := by
        rw [recSerializeItems_cons, r1]
      rcases hrest e he' with h | h
      · rcases itemStep_sound val path st si di idx scal dcal H e h with h2 | h2
        · left; exact h2
        · right
          rw [hdata]
          refine GoodE_mono _ _ _ _ ?_ (GoodE_append _ _ _ _ h2)
          intro x hx
          simp only [List.mem_cons] at hx
          simp [entriesItems]
          tauto
      · right
        have hGr : GoodE (recSerializeItems (val :: rest) path st si di idx scal dcal).1.s.data
            (entriesItems path rest (idx + 1)) e := by
          rw [hdata, ← r1]
          exact h
        refine GoodE_mono _ _ _ _ ?_ hGr
        intro x hx
        simp [entriesItems]
        tauto
termination_by (sizeOf l, 5)
end

/-! ### The usize-underflow flag -/

theorem encodeString_length_ge_two (s : Str) : 2 ≤ (encodeString s).length := by
  simp [encodeString]

theorem escapeStr_encodeString_length_ge_two (s : Str) :
    2 ≤ (escapeStr (encodeString s)).length := by
  have : escapeStr (encodeString s) = escapeByte 0x22 ++ escapeStr (escapeStr s ++ [0x22]) := by
    simp [encodeString, escapeStr]
  rw [this]
  simp [escapeByte]

mutual
/-- The underflow flag is raised exactly when the double buffer is absent
and the value contains a string: only then is the `usize` subtraction
`double_serialized_len - 2` evaluated with minuend `0`; with the double
buffer present both minuends in the string arm are at least 2. -/
theorem recSerialize_uf (v : JValue) (path : Str) (st : SerState) (si di : Nat) :
    (recSerialize v path st si di).1.uf
      = (st.uf || (!st.d.isSome && containsString v)) := by
  cases v with
  | jnull => simp [recSerialize, serScalar, containsString]
  | jbool b => cases b <;> simp [recSerialize, serScalar, containsString]
  | jnum n => simp [recSerialize, serScalar, containsString]
  | jstr s =>
      cases hd : st.d with
      | none => simp [recSerialize, hd, pushS, containsString]
      | some ds =>
          have h1 := encodeString_length_ge_two s
          have h2 := escapeStr_encodeString_length_ge_two s
          simp [recSerialize, hd, pushS, pushD, containsString]
          rw [decide_eq_false (by omega), decide_eq_false (by omega)]
          simp
  | jobj m =>
      have hm := recSerializeMembers_uf m path (pushD (pushS st [0x7B]) [0x7B]) si di 0 1 1
      simp only [pushD_uf, pushS_uf, pushD_d_isSome, pushS_d] at hm
      simp [recSerialize, hm, containsString]
  | jarr xs =>
      have hm := recSerializeItems_uf xs path (pushD (pushS st [0x5B]) [0x5B]) si di 0 1 1
      simp only [pushD_uf, pushS_uf, pushD_d_isSome, pushS_d] at hm
      simp [recSerialize, hm, containsString]
termination_by (sizeOf v, 3)

theorem memberStep_uf (key : Str) (val : JValue) (path : Str) (st : SerState)
    (si di idx scml dcml : Nat) :
    (memberStep key val path st si di idx scml dcml).1.uf
      = (st.uf || (!st.d.isSome && containsString val)) := by
  obtain ⟨p1, p2, p3, p4, p5⟩ := memberPre_proj key st idx scml dcml
  have hc := recSerialize_uf val (joinPath path key)
    (memberPre key st idx scml dcml).1 (si + (memberPre key st idx scml dcml).2.1)
    (di + (memberPre key st idx scml dcml).2.2)
  obtain ⟨q1, q2, q3, q4, q5⟩ := memberPost_proj (joinPath path key)
    (recSerialize val (joinPath path key) (memberPre key st idx scml dcml).1
      (si + (memberPre key st idx scml dcml).2.1)
      (di + (memberPre key st idx scml dcml).2.2)).1
    (recSerialize val (joinPath path key) (memberPre key st idx scml dcml).1
      (si + (memberPre key st idx scml dcml).2.1)
      (di + (memberPre key st idx scml dcml).2.2)).2.1
    (recSerialize val (joinPath path key) (memberPre key st idx scml dcml).1
      (si + (memberPre key st idx scml dcml).2.1)
      (di + (memberPre key st idx scml dcml).2.2)).2.2
    si di (memberPre key st idx scml dcml).2.1 (memberPre key st idx scml dcml).2.2
  simp only [memberStep]
  rw [q5, hc, p5, p4]
termination_by (sizeOf val, 4)

theorem recSerializeMembers_uf (l : List (Str × JValue)) (path : Str) (st : SerState)
    (si di idx scml dcml : Nat) :
    (recSerializeMembers l path st si di idx scml dcml).1.uf
      = (st.uf || (!st.d.isSome && containsStringMems l)) := by
  cases l with
  | nil => simp [recSerializeMembers, containsStringMems]
  | cons hd rest =>
      obtain ⟨key, val⟩ := hd
      have hstep := memberStep_uf key val path st si di idx scml dcml
      obtain ⟨_, _, s3⟩ := memberStep_data key val path st si di idx scml dcml
      have hrest := recSerializeMembers_uf rest path
        (memberStep key val path st si di idx scml dcml).1 si di (idx + 1)
        (memberStep key val path st si di idx scml dcml).2.1
        (memberStep key val path st si di idx scml dcml).2.2
      rw [recSerializeMembers_cons]
      rw [hrest, hstep, s3]
      simp [containsStringMems]
      cases st.uf <;> cases st.d.isSome <;>
        cases containsString val <;> cases containsStringMems rest <;> simp
termination_by (sizeOf l, 5)

theorem itemStep_uf (val : JValue) (path : Str) (st : SerState)
    (si di idx scal dcal : Nat) :
    (itemStep val path st si di idx scal dcal).1.uf
      = (st.uf || (!st.d.isSome && containsString val)) := by
  obtain ⟨p1, p2, p3, p4, p5⟩ := itemPre_proj st idx scal dcal
  have hc := recSerialize_uf val (joinPath path (natToBytes idx))
    (itemPre st idx scal dcal).1 (si + (itemPre st idx scal dcal).2.1)
    (di + (itemPre st idx scal dcal).2.2)
  obtain ⟨q1, q2, q3, q4, q5⟩ := itemPost_proj (joinPath path (natToBytes idx))
    (recSerialize val (joinPath path (natToBytes idx)) (itemPre st idx scal dcal).1
      (si + (itemPre st idx scal dcal).2.1) (di + (itemPre st idx scal dcal).2.2)).1
    (recSerialize val (joinPath path (natToBytes idx)) (itemPre st idx scal dcal).1
      (si + (itemPre st idx scal dcal).2.1) (di + (itemPre st idx scal dcal).2.2)).2.1
    (recSerialize val (joinPath path (natToBytes idx)) (itemPre st idx scal dcal).1
      (si + (itemPre st idx scal dcal).2.1) (di + (itemPre st idx scal dcal).2.2)).2.2
    si di (itemPre st idx scal dcal).2.1 (itemPre st idx scal dcal).2.2
  simp only [itemStep]
  rw [q5, hc, p5, p4]
termination_by (sizeOf val, 4)

theorem recSerializeItems_uf (l : List JValue) (path : Str) (st : SerState)
    (si di idx scal dcal : Nat) :
    (recSerializeItems l path st si di idx scal dcal).1.uf
      = (st.uf || (!st.d.isSome && containsStringItems l)) := by
  cases l with
  | nil => simp [recSerializeItems, containsStringItems]
  | cons val rest =>
      have hstep := itemStep_uf val path st si di idx scal dcal
      obtain ⟨_, _, s3⟩ := itemStep_data val path st si di idx scal dcal
      have hrest := recSerializeItems_uf rest path
        (itemStep val path st si di idx scal dcal).1 si di (idx + 1)
        (itemStep val path st si di idx scal dcal).2.1
        (itemStep val path st si di idx scal dcal).2.2
      rw [recSerializeItems_cons]
      rw [hrest, hstep, s3]
      simp [containsStringItems]
      cases st.uf <;> cases st.d.isSome <;>
        cases containsString val <;> cases containsStringItems rest <;> simp
termination_by (sizeOf l, 5)
end

/-! ### Path lemmas for the serialized index -/

theorem toDigitsCore_length_succ (b : Nat) :
    ∀ (fuel n : Nat) (ds : List Char),
      ds.length + 1 ≤ (Nat.toDigitsCore b (fuel + 1) n ds).length := by
  intro fuel
  induction fuel with
  | zero =>
      intro n ds
      simp only [Nat.toDigitsCore]
      split <;> simp
  | succ f ih =>
      intro n ds
      simp only [Nat.toDigitsCore]
      split
      · simp
      · calc ds.length + 1 ≤ (Nat.digitChar (n % b) :: ds).length + 1 := by simp
          _ ≤ _ := ih (n / b) (Nat.digitChar (n % b) :: ds)

theorem natToBytes_ne_nil (n : Nat) : natToBytes n ≠ [] := by
  have h := toDigitsCore_length_succ 10 n n []
  simp only [natToBytes, Nat.toDigits]
  intro hcon
  rw [List.map_eq_nil_iff] at hcon
  rw [hcon] at h
  simp at h

@[simp] theorem joinPath_nil (k : Str) : joinPath [] k = k := by simp [joinPath]

theorem joinPath_ne_nil_left (p k : Str) (hp : p ≠ []) : joinPath p k ≠ [] := by
  simp [joinPath, hp]

theorem joinPath_ne_nil_right (p k : Str) (hk : k ≠ []) : joinPath p k ≠ [] := by
  by_cases hp : p = [] <;> simp [joinPath, hp, hk]

mutual
/-- Below a non-empty parent path, every recorded path is non-empty. -/
theorem entriesFrom_path_ne_nil (v : JValue) (p : Str) (hp : p ≠ []) :
    ∀ e ∈ entriesFrom p v, e.1 ≠ [] := by
  cases v with
  | jobj m => intro e he; exact entriesMem_path_ne_nil m p hp e (by simpa [entriesFrom] using he)
  | jarr xs => intro e he; exact entriesItems_path_ne_nil xs p 0 e (by simpa [entriesFrom] using he)
  | jnull => intro e he; simp [entriesFrom] at he
  | jbool b => intro e he; simp [entriesFrom] at he
  | jnum n => intro e he; simp [entriesFrom] at he
  | jstr s => intro e he; simp [entriesFrom] at he
termination_by (sizeOf v, 0)

theorem entriesMem_path_ne_nil (l : List (Str × JValue)) (p : Str) (hp : p ≠ []) :
    ∀ e ∈ entriesMem p l, e.1 ≠ [] := by
  cases l with
  | nil => intro e he; simp [entriesMem] at he
  | cons hd rest =>
      obtain ⟨k, c⟩ := hd
      intro e he
      simp only [entriesMem, List.mem_cons, List.mem_append] at he
      rcases he with he | he | he
      · rw [he]; exact joinPath_ne_nil_left p k hp
      · exact entriesFrom_path_ne_nil c (joinPath p k) (joinPath_ne_nil_left p k hp) e he
      · exact entriesMem_path_ne_nil rest p hp e he
termination_by (sizeOf l, 1)

/-- Array items get a numeric path segment, so their recorded paths are
non-empty under every parent path. -/
theorem entriesItems_path_ne_nil (l : List JValue) (p : Str) (idx : Nat) :
    ∀ e ∈ entriesItems p l idx, e.1 ≠ [] := by
  cases l with
  | nil => intro e he; simp [entriesItems] at he
  | cons c rest =>
      intro e he
      simp only [entriesItems, List.mem_cons, List.mem_append] at he
      rcases he with he | he | he
      · rw [he]; exact joinPath_ne_nil_right p _ (natToBytes_ne_nil idx)
      · exact entriesFrom_path_ne_nil c (joinPath p (natToBytes idx))
          (joinPath_ne_nil_right p _ (natToBytes_ne_nil idx)) e he
      · exact entriesItems_path_ne_nil rest p (idx + 1) e he
termination_by (sizeOf l, 1)
end

/-- Whether the root is an object holding a key equal to the empty string. -/
def rootHasEmptyKey : JValue → Bool
  | .jobj m => (mapLookup m []).isSome
  | _ => false

/-- An entry with the empty path can only come from an empty key directly in
the root object. -/
theorem empty_path_entry_root (m : List (Str × JValue)) :
    ∀ sub, ([], sub) ∈ entriesMem [] m → (mapLookup m []).isSome := by
  induction m with
  | nil => intro sub h; simp [entriesMem] at h
  | cons hd rest ih =>
      obtain ⟨k, c⟩ := hd
      intro sub h
      simp only [entriesMem, joinPath_nil, List.mem_cons, List.mem_append] at h
      by_cases hk : k = []
      · subst hk; simp [mapLookup]
      · rcases h with h | h | h
        · exact absurd (congrArg Prod.fst h).symm hk
        · exact absurd (entriesFrom_path_ne_nil c k hk ([], sub) h rfl) (by simp)
        · have := ih sub h
          simpa [mapLookup, hk] using this

/-- Top-level soundness of the single-escaped index produced by
`serialize(v, true)`: shared backbone of the index claims. -/
theorem serialize_index_sound (v : JValue) (p : Str) (r : KeyValueRange)
    (h : (p, r) ∈ (serialize v true).s.key_values) :
    ∃ sub, (p, sub) ∈ entriesFrom [] v ∧
      r.stop ≤ (serialize v true).s.data.length ∧
      sliceBytes (serialize v true).s.data r.start r.stop = serForm sub := by
  have hs := recSerialize_sound v []
    { s := ⟨[], [], 0⟩, d := some ⟨[], [], 0⟩, uf := false } 0 0 rfl (p, r)
    (by simpa [serialize] using h)
  rcases hs with hold | hgood
  · simp at hold
  · obtain ⟨sub, hmem, hle, hslice⟩ := hgood
    exact ⟨sub, hmem, by simpa [serialize] using hle, by simpa [serialize] using hslice⟩

/-! ### Claim C1 -/

/-- Claim C1 counterexample.  For the tree `{"k": "\""}` (the string value
is the single byte `0x22`, a quote), the single-escaped index records range
`[6, 8)` for path `k`, and the slice is the *escaped* body `\"`
(bytes `0x5C 0x22`), not the raw (unescaped) one-byte content `0x22`
claimed by the spec. -/
theorem C1_counterexample :
    mapLookup (serialize (.jobj [([0x6B], .jstr [0x22])]) true).s.key_values [0x6B]
      = some ⟨6, 8⟩ ∧
    sliceBytes (serialize (.jobj [([0x6B], .jstr [0x22])]) true).s.data 6 8
      = [0x5C, 0x22] ∧
    [0x5C, 0x22] ≠ ([0x22] : Str) := by
  refine ⟨by decide, by decide, by decide⟩

/-- Claim C1 (amended): for every path/range entry recorded in the
single-escaped index, slicing the buffer yields the serialized form of a
subtree listed at that path: the full compact JSON re-encoding for
non-string subtrees, and for string leaves the *single-escaped* string body
with the surrounding quotes excluded (equal to the raw content exactly when
no byte needs escaping). -/
theorem C1_roundtrip (v : JValue) (p : Str) (r : KeyValueRange)
    (h : (p, r) ∈ (serialize v true).s.key_values) :
    ∃ sub, (p, sub) ∈ entriesFrom [] v ∧
      r.stop ≤ (serialize v true).s.data.length ∧
      sliceBytes (serialize v true).s.data r.start r.stop = serForm sub :=
  serialize_index_sound v p r h

/-- Witness for C1: the tree `{"k": "a"}`; the index records `[6, 7)` for
path `k` and the slice is the one-byte body `a`. -/
theorem C1_roundtrip_witness :
    ([0x6B], (⟨6, 7⟩ : KeyValueRange)) ∈
      (serialize (.jobj [([0x6B], .jstr [0x61])]) true).s.key_values ∧
    (∃ sub, (([0x6B] : Str), sub) ∈ entriesFrom [] (.jobj [([0x6B], .jstr [0x61])]) ∧
      (⟨6, 7⟩ : KeyValueRange).stop
        ≤ (serialize (.jobj [([0x6B], .jstr [0x61])]) true).s.data.length ∧
      sliceBytes (serialize (.jobj [([0x6B], .jstr [0x61])]) true).s.data
        (⟨6, 7⟩ : KeyValueRange).start (⟨6, 7⟩ : KeyValueRange).stop = serForm sub) :=
  ⟨by decide, C1_roundtrip (.jobj [([0x6B], .jstr [0x61])]) [0x6B] ⟨6, 7⟩ (by decide)⟩

/-! ### Claim C8 -/

/-- Claim C8 counterexample.  When the root object contains a key equal to
the empty string -- the tree `{"": null}` -- the serializer *does* record
the empty path as an index key (range `[4, 8)`, slicing to `null`),
refuting "the empty string is never a key of the path-to-range index,
including when the root object itself contains a key equal to the empty
string". -/
theorem C8_counterexample :
    mapLookup (serialize (.jobj [([], .jnull)]) true).s.key_values []
      = some ⟨4, 8⟩ := by
  decide

/-- Claim C8 (amended): the empty path is never a key of the single-escaped
index *provided* the root object does not itself contain a key equal to the
empty string (only such a root key can produce the empty dotted path). -/
theorem C8_empty_path (v : JValue) (h : rootHasEmptyKey v = false) :
    ∀ r : KeyValueRange, ([], r) ∉ (serialize v true).s.key_values := by
  intro r hmem
  obtain ⟨sub, hsub, -, -⟩ := serialize_index_sound v [] r hmem
  cases v with
  | jobj m =>
      have := empty_path_entry_root m sub (by simpa [entriesFrom] using hsub)
      simp [rootHasEmptyKey] at h
      rw [h] at this
      simp at this
  | jarr xs =>
      exact absurd (entriesItems_path_ne_nil xs [] 0 ([], sub)
        (by simpa [entriesFrom] using hsub) rfl) (by simp)
  | jnull => simp [entriesFrom] at hsub
  | jbool b => simp [entriesFrom] at hsub
  | jnum n => simp [entriesFrom] at hsub
  | jstr s => simp [entriesFrom] at hsub

/-- Witness for C8: the one-key tree `{"k": null}` has no entry at the
empty path. -/
theorem C8_empty_path_witness :
    rootHasEmptyKey (.jobj [([0x6B], .jnull)]) = false ∧
    ∀ r : KeyValueRange,
      ([], r) ∉ (serialize (.jobj [([0x6B], .jnull)]) true).s.key_values :=
  ⟨by decide, C8_empty_path (.jobj [([0x6B], .jnull)]) (by decide)⟩

/-! ### Claim C9 -/

/-- Claim C9 (confirmed).  In the `Value::String` arm the code evaluates the
usize subtractions `len - 2` and `double_serialized_len - 2`; the model's
`uf` flag records a minuend below 2 (a usize underflow).  With
`double_serialize = false` the string arm sets `double_serialized_len = 0`,
so for every value containing a string the subtraction `0 - 2` underflows
(`uf = containsString v`); with `double_serialize = true` every minuend is
at least 2 (`len` counts the quotes, `double_serialized_len` the escaped
quotes), so `uf` is never raised. -/
theorem C9_string_arm_underflow (v : JValue) :
    (serialize v false).uf = containsString v ∧ (serialize v true).uf = false := by
  constructor
  · have := recSerialize_uf v [] { s := ⟨[], [], 0⟩, d := none, uf := false } 0 0
    simpa [serialize] using this
  · have := recSerialize_uf v [] { s := ⟨[], [], 0⟩, d := some ⟨[], [], 0⟩, uf := false } 0 0
    simpa [serialize] using this

/-! ### Claim C10: `get` resolution -/

theorem mem_splitOnByte_subset (sep : Nat) :
    ∀ (s : Str), ∀ t ∈ splitOnByte sep s, ∀ x ∈ t, x ∈ s := by
  intro s
  induction s with
  | nil => intro t ht x hx; simp [splitOnByte] at ht; simp [ht] at hx
  | cons c rest ih =>
      intro t ht x hx
      by_cases hc : c = sep
      · simp [splitOnByte, hc] at ht
        rcases ht with ht | ht
        · simp [ht] at hx
        · exact List.mem_cons_of_mem _ (ih t ht x hx)
      · simp only [splitOnByte, if_neg hc] at ht
        cases hs : splitOnByte sep rest with
        | nil => rw [hs] at ht; simp at ht; simp [ht] at hx; simp [hx]
        | cons t' ts =>
            rw [hs] at ht
            simp at ht
            rcases ht with ht | ht
            · subst ht
              rcases List.mem_cons.mp hx with hx | hx
              · simp [hx]
              · exact List.mem_cons_of_mem _ (ih t' (by simp [hs]) x hx)
            · exact List.mem_cons_of_mem _ (ih t (by simp [hs, ht]) x hx)

theorem replacePair_mem (p1 p2 : Nat) (r : Str) :
    ∀ (s : Str), ∀ x ∈ replacePair p1 p2 r s, x ∈ r ∨ x ∈ s := by
  have H : ∀ (n : Nat) (s : Str), s.length ≤ n →
      ∀ x ∈ replacePair p1 p2 r s, x ∈ r ∨ x ∈ s := by
    intro n
    induction n with
    | zero =>
        intro s hs x hx
        match s with
        | [] => simp [replacePair] at hx
        | c :: rest => simp at hs
    | succ n ih =>
        intro s hs x hx
        match s with
        | [] => simp [replacePair] at hx
        | [c] => simp [replacePair] at hx; simp [hx]
        | c1 :: c2 :: rest =>
            simp only [replacePair] at hx
            split at hx
            · rcases List.mem_append.mp hx with hx | hx
              · exact Or.inl hx
              · rcases ih rest (by simp at hs; omega) x hx with h | h
                · exact Or.inl h
                · exact Or.inr (by simp [h])
            · rcases List.mem_cons.mp hx with hx | hx
              · exact Or.inr (by simp [hx])
              · rcases ih (c2 :: rest) (by simp at hs ⊢; omega) x hx with h | h
                · exact Or.inl h
                · exact Or.inr (by simp at h ⊢; tauto)
  intro s
  exact H s.length s le_rfl

theorem replaceDotSlash_no_dot (s : Str) : (0x2E : Nat) ∉ replaceDotSlash s := by
  simp only [replaceDotSlash, List.mem_map]
  rintro ⟨b, -, hb⟩
  by_cases h : b = 0x2E
  · simp [h] at hb
  · simp [h] at hb

theorem unescapeToken_no_dot (t : Str) (h : (0x2E : Nat) ∉ t) :
    (0x2E : Nat) ∉ unescapeToken t := by
  intro hx
  rcases replacePair_mem 0x7E 0x30 [0x7E] _ _ hx with h1 | h1
  · simp at h1
  · rcases replacePair_mem 0x7E 0x31 [0x2F] t _ h1 with h2 | h2
    · simp at h2
    · exact h h2

theorem mapLookup_sizeOf (m : List (Str × JValue)) (k : Str) (v : JValue)
    (h : mapLookup m k = some v) : sizeOf v < sizeOf (JValue.jobj m) := by
  induction m with
  | nil => simp [mapLookup] at h
  | cons hd tl ih =>
      obtain ⟨k', v'⟩ := hd
      by_cases hk : k' = k
      · simp [mapLookup, hk] at h
        subst h
        simp
        omega
      · simp [mapLookup, hk] at h
        have := ih h
        simp at this ⊢
        omega

/-- Claim C10 (confirmed).  `get` builds the pointer `"/" ++
target.replace('.', '/')` and resolves it token by token; consequently
(i) resolution always walks the `'/'`-split, `~`-unescaped tokens of the
rewritten path, (ii) `get("")` looks up the member stored under the
empty-string key of an object root (not-found for any other root) and never
returns the root itself, and (iii) every consulted token is free of `'.'`,
so object keys containing a dot are never addressable. -/
theorem C10_get :
    (∀ (c : DataCacheS) (target : Str),
        dcGet c target
          = ptrFold c.root
              ((splitOnByte 0x2F (replaceDotSlash target)).map unescapeToken)) ∧
    (∀ c : DataCacheS,
        dcGet c [] = (match c.root with | .jobj m => mapLookup m [] | _ => none)) ∧
    (∀ (c : DataCacheS) (v' : JValue), dcGet c [] = some v' → v' ≠ c.root) ∧
    (∀ (target t : Str),
        t ∈ (splitOnByte 0x2F (replaceDotSlash target)).map unescapeToken →
          (0x2E : Nat) ∉ t) := by
  have key : ∀ (c : DataCacheS) (target : Str),
      dcGet c target
        = ptrFold c.root ((splitOnByte 0x2F (replaceDotSlash target)).map unescapeToken) := by
    intro c target
    simp [dcGet, pointerResolve, splitOnByte]
  have htok : (splitOnByte 0x2F (replaceDotSlash ([] : Str))).map unescapeToken
      = [[]] := by decide
  have key2 : ∀ c : DataCacheS,
      dcGet c [] = (match c.root with | .jobj m => mapLookup m [] | _ => none) := by
    intro c
    rw [key, htok]
    cases c.root with
    | jobj m => cases hml : mapLookup m [] <;> simp [ptrFold, hml]
    | jarr xs => simp [ptrFold, parseIndex]
    | jnull => simp [ptrFold]
    | jbool b => simp [ptrFold]
    | jnum n => simp [ptrFold]
    | jstr s => simp [ptrFold]
  refine ⟨key, key2, ?_, ?_⟩
  · intro c v' h
    rw [key2] at h
    cases hroot : c.root with
    | jobj m =>
        rw [hroot] at h
        simp at h
        have hsz := mapLookup_sizeOf m [] v' h
        intro hcon
        rw [hcon] at hsz
        omega
    | jarr xs => rw [hroot] at h; simp at h
    | jnull => rw [hroot] at h; simp at h
    | jbool b => rw [hroot] at h; simp at h
    | jnum n => rw [hroot] at h; simp at h
    | jstr s => rw [hroot] at h; simp at h
  · intro target t ht
    rcases List.mem_map.mp ht with ⟨t0, ht0, rfl⟩
    refine unescapeToken_no_dot t0 ?_
    intro hdot
    exact replaceDotSlash_no_dot target
      (mem_splitOnByte_subset 0x2F (replaceDotSlash target) t0 ht0 0x2E hdot)

/-- Witness for C10 on the cache whose root is `{"": null}`: `get("")`
returns the `null` stored under the empty key, which is not the root, and a
sample token is dot-free. -/
theorem C10_get_witness :
    dcGet { root := .jobj [([], .jnull)], reserved := [], cache := {} } [] = some .jnull ∧
    JValue.jnull ≠ (JValue.jobj [([], .jnull)]) ∧
    (0x2E : Nat) ∉ ([0x61] : Str) :=
  ⟨rfl,
   C10_get.2.2.1 { root := .jobj [([], .jnull)], reserved := [], cache := {} } .jnull rfl,
   by decide⟩

/-! ### Claim C4: intermediate-segment coercion in `insert_rec` -/

theorem splitFirstDot_append (k1 k2 : Str) (h : (0x2E : Nat) ∉ k1) :
    splitFirstDot (k1 ++ 0x2E :: k2) = (k1, some k2) := by
  induction k1 with
  | nil => simp [splitFirstDot]
  | cons b bs ih =>
      have hb : b ≠ 0x2E := by intro hcon; exact h (by simp [hcon])
      have hmem : (0x2E : Nat) ∉ bs := fun hcon => h (by simp [hcon])
      simp [splitFirstDot, hb, ih hmem]

theorem splitFirstDot_some_of_contains (p : Str) (h : (0x2E : Nat) ∈ p) :
    ∃ k r, splitFirstDot p = (k, some r) := by
  induction p with
  | nil => simp at h
  | cons b bs ih =>
      by_cases hb : b = 0x2E
      · exact ⟨[], bs, by simp [splitFirstDot, hb]⟩
      · have : (0x2E : Nat) ∈ bs := by
          rcases List.mem_cons.mp h with h | h
          · exact absurd h.symm hb
          · exact h
        obtain ⟨k, r, hkr⟩ := ih this
        exact ⟨b :: k, r, by simp [splitFirstDot, hb, hkr]⟩

/-- An insertion whose path still contains a dot is a silent no-op when the
addressed parent is not an object (`_ => {}` arms of `insert_rec`). -/
theorem insertRec_nonobj_noop (parent : JValue) (path : Str) (value : JValue)
    (hobj : parent.isObj = false) (hdot : (0x2E : Nat) ∈ path) :
    insertRec parent path value = parent := by
  obtain ⟨k, r, hkr⟩ := splitFirstDot_some_of_contains path hdot
  cases parent <;> simp_all [insertRec, JValue.isObj, hkr] <;> try (split <;> simp_all)

/-- Claim C4 counterexample.  In the tree `{"a": "s"}` the insert
`insert("a.b.c", 1)` addresses the existing non-object `"s"` through the
intermediate segment `a` with two more segments to go; the claim demands
that `"s"` be coerced to an object and descent continue, but the code
leaves the tree unchanged (silent no-op). -/
theorem C4_counterexample :
    insertRec (.jobj [([0x61], .jstr [0x73])]) [0x61, 0x2E, 0x62, 0x2E, 0x63]
        (.jnum [0x31])
      = .jobj [([0x61], .jstr [0x73])] := by
  simp [insertRec, splitFirstDot, mapLookup, mapSet, List.contains, List.elem]

/-- Claim C4 (amended): an existing non-object is coerced to an object only
at the *penultimate* segment (exactly two segments remaining): there the
entry is replaced by a fresh object holding the final segment; at any
greater depth (the remaining path still contains a dot) an existing
non-object intermediate makes the insert a silent no-op instead. -/
theorem C4_coercion :
    (∀ (m : List (Str × JValue)) (k1 k2 : Str) (x v : JValue),
        (0x2E : Nat) ∉ k1 → (0x2E : Nat) ∉ k2 → k2 ≠ [] →
        mapLookup m k1 = some x → x.isObj = false →
        insertRec (.jobj m) (k1 ++ 0x2E :: k2) v
          = .jobj (mapSet m k1
              (.jobj [(k2, if v.isObj then mergeRec (.jobj []) v else v)]))) ∧
    (∀ (m : List (Str × JValue)) (k1 rest : Str) (x v : JValue),
        (0x2E : Nat) ∉ k1 → (0x2E : Nat) ∈ rest →
        mapLookup m k1 = some x → x.isObj = false →
        insertRec (.jobj m) (k1 ++ 0x2E :: rest) v = .jobj m) := by
  constructor
  · intro m k1 k2 x v h1 h2 hk2 hx hxobj
    have hsp := splitFirstDot_append k1 k2 h1
    have hc : k2.contains 0x2E = false := by simp [h2]
    rw [insertRec.eq_def]
    split
    next ck hnone =>
      rw [hsp] at hnone
      simp at hnone
    next ck rp hsome =>
      rw [hsp] at hsome
      simp only [Prod.mk.injEq, Option.some.injEq] at hsome
      obtain ⟨rfl, rfl⟩ := hsome
      simp only [hc, Bool.false_eq_true, if_false, if_neg hk2, hx]
      cases x <;> simp_all [JValue.isObj, mapLookup, mapSet] <;> split <;> rfl
  · intro m k1 rest x v h1 hdot hx hxobj
    have hsp := splitFirstDot_append k1 rest h1
    have hc : rest.contains 0x2E = true := by simp [hdot]
    have hnoop := insertRec_nonobj_noop x rest v hxobj hdot
    rw [insertRec.eq_def]
    split
    next ck hnone =>
      rw [hsp] at hnone
      simp at hnone
    next ck rp hsome =>
      rw [hsp] at hsome
      simp only [Prod.mk.injEq, Option.some.injEq] at hsome
      obtain ⟨rfl, rfl⟩ := hsome
      simp only [hc, if_true, hx]
      rw [hnoop, mapSet_lookup_self m k1 x hx]

/-- Witness for C4 at concrete inputs: in `{"a": 5}`, `insert("a.b", "w")`
coerces the number to an object holding `b`; `insert("a.b.c", "w")` in the
same tree is a no-op. -/
theorem C4_coercion_witness :
    insertRec (.jobj [([0x61], .jnum [0x35])]) [0x61, 0x2E, 0x62] (.jstr [0x77])
      = .jobj [([0x61], .jobj [([0x62], .jstr [0x77])])] ∧
    insertRec (.jobj [([0x61], .jnum [0x35])]) [0x61, 0x2E, 0x62, 0x2E, 0x63]
        (.jstr [0x77])
      = .jobj [([0x61], .jnum [0x35])] := by
  constructor
  · have h := C4_coercion.1 [([0x61], .jnum [0x35])] [0x61] [0x62]
      (.jnum [0x35]) (.jstr [0x77]) (by decide) (by decide) (by decide)
      (by simp [mapLookup]) (by decide)
    simpa [mapSet, mergeRec, JValue.isObj] using h
  · exact C4_coercion.2 [([0x61], .jnum [0x35])] [0x61] [0x62, 0x2E, 0x63]
      (.jnum [0x35]) (.jstr [0x77]) (by decide) (by decide)
      (by simp [mapLookup]) (by decide)

/-! ### Claim C3: the root stays an object -/

theorem isObj_iff (v : JValue) : v.isObj = true ↔ ∃ m, v = .jobj m := by
  cases v <;> simp [JValue.isObj]

/-- `insert_rec` on an object parent always returns an object. -/
theorem insertRec_obj (m : List (Str × JValue)) (path : Str) (v : JValue) :
    (insertRec (.jobj m) path v).isObj = true := by
  rw [insertRec.eq_def]
  split <;> (repeat' split) <;> simp_all [JValue.isObj]

/-- `merge_rec` of two objects returns an object. -/
theorem mergeRec_obj (ma mb : List (Str × JValue)) :
    (mergeRec (.jobj ma) (.jobj mb)).isObj = true := by
  simp [mergeRec, JValue.isObj]

theorem foldl_insertRec_obj (l : List (Str × JValue)) :
    ∀ (m : List (Str × JValue)),
      ((l.foldl (fun r pv => insertRec r pv.1 pv.2) (.jobj m)).isObj) = true := by
  induction l with
  | nil => intro m; simp [JValue.isObj]
  | cons pv rest ih =>
      intro m
      simp only [List.foldl_cons]
      obtain ⟨m', hm'⟩ := (isObj_iff _).mp (insertRec_obj m pv.1 pv.2)
      rw [hm']
      exact ih m'

theorem matchRegexLoop_obj (names : List (Option Str)) :
    ∀ (c : DataCacheS) (captured : Str → Option Str), c.root.isObj = true →
      ((matchRegexLoop c captured names).1.root).isObj = true := by
  induction names with
  | nil => intro c captured hc; simpa [matchRegexLoop] using hc
  | cons nameOpt rest ih =>
      intro c captured hc
      obtain ⟨m, hm⟩ := (isObj_iff _).mp hc
      cases nameOpt with
      | none => simpa [matchRegexLoop] using ih c captured hc
      | some name =>
          by_cases hres : name ∈ c.reserved
          · simpa [matchRegexLoop, hres] using hc
          · cases hcap : captured name with
            | none => simpa [matchRegexLoop, hres, hcap] using ih c captured hc
            | some s =>
                have : ((dcInsert c name (.jstr s)).root).isObj = true := by
                  simp only [dcInsert, onAfterInsert, hm]
                  exact insertRec_obj m name (.jstr s)
                simpa [matchRegexLoop, hres, hcap] using
                  ih (dcInsert c name (.jstr s)) captured this

theorem replaceWithDataCache_root (acNew : List Str → Option ACModel)
    (c : DataCacheS) : (replaceWithDataCache acNew c).1.root = c.root := by
  simp only [replaceWithDataCache]
  split
  · rfl
  · split <;> rfl

/-- The public operations of `DataCache` as a trace alphabet (`get` and
`Display` are read-only and omitted). -/
inductive DCOp where
  | opInsert (p : Str) (v : JValue)
  | opInsertBulk (l : List (Str × JValue))
  | opMerge (v : JValue)
  | opMatchRegex (names : List (Option Str)) (captured : Str → Option Str)
  | opReplace (acNew : List Str → Option ACModel)

/-- One public operation applied to a cache state. -/
def applyOp (c : DataCacheS) : DCOp → DataCacheS
  | .opInsert p v => dcInsert c p v
  | .opInsertBulk l => dcInsertBulk c l
  | .opMerge v => dcMerge c v
  | .opMatchRegex names captured => (matchRegexLoop c captured names).1
  | .opReplace acNew => (replaceWithDataCache acNew c).1

/-- Claim C3 counterexample.  `merge(true)` on a fresh cache replaces the
object root with the scalar `true` (`merge_rec` falls through to `*a = b`),
so the root does not remain an object under every merge argument. -/
theorem C3_counterexample :
    ((applyOp (DataCacheS.new []) (.opMerge (.jbool true))).root).isObj = false := rfl

/-- Claim C3 (amended): starting from `DataCache::new`, the root stays an
object under every sequence of public operations in which every `merge`
argument is itself an object; a non-object `merge` argument replaces the
root wholesale (see the counterexample). -/
theorem C3_object_root (reserved : List Str) (ops : List DCOp)
    (hmerge : ∀ v, DCOp.opMerge v ∈ ops → v.isObj = true) :
    ((ops.foldl applyOp (DataCacheS.new reserved)).root).isObj = true := by
  have step : ∀ (c : DataCacheS) (op : DCOp), c.root.isObj = true →
      (∀ v, op = DCOp.opMerge v → v.isObj = true) →
      ((applyOp c op).root).isObj = true := by
    intro c op hc hop
    obtain ⟨m, hm⟩ := (isObj_iff _).mp hc
    cases op with
    | opInsert p v =>
        simp only [applyOp, dcInsert, onAfterInsert, hm]
        exact insertRec_obj m p v
    | opInsertBulk l =>
        simp only [applyOp, dcInsertBulk, onAfterInsert, hm]
        exact foldl_insertRec_obj l m
    | opMerge v =>
        obtain ⟨mb, hmb⟩ := (isObj_iff _).mp (hop v rfl)
        simp only [applyOp, dcMerge, hm, hmb]
        exact mergeRec_obj m mb
    | opMatchRegex names captured => exact matchRegexLoop_obj names c captured hc
    | opReplace acNew =>
        simpa only [applyOp, replaceWithDataCache_root] using hc
  have aux : ∀ (ops' : List DCOp) (c : DataCacheS), c.root.isObj = true →
      (∀ v, DCOp.opMerge v ∈ ops' → v.isObj = true) →
      ((ops'.foldl applyOp c).root).isObj = true := by
    intro ops'
    induction ops' with
    | nil => intro c hc _; simpa using hc
    | cons op rest ih =>
        intro c hc hm
        simp only [List.foldl_cons]
        refine ih (applyOp c op) ?_ ?_
        · exact step c op hc fun v hv => hm v (by simp [hv])
        · intro v hv; exact hm v (by simp [hv])
  exact aux ops (DataCacheS.new reserved) rfl hmerge

/-- Witness for C3 on the trace `insert("a", "x"); merge({})`. -/
theorem C3_object_root_witness :
    (([DCOp.opInsert [0x61] (.jstr [0x78]), DCOp.opMerge (.jobj [])].foldl
        applyOp (DataCacheS.new [])).root).isObj = true :=
  C3_object_root [] [DCOp.opInsert [0x61] (.jstr [0x78]), DCOp.opMerge (.jobj [])]
    (by
      intro v hv
      simp only [List.mem_cons, List.not_mem_nil, or_false] at hv
      rcases hv with hv | hv
      · exact absurd hv (by simp)
      · cases hv; rfl)

/-! ### Claim C5: reserved names in `match_regex` -/

/-- The effect of one capture name on the cache: participating named groups
are inserted (`DataCache::insert`), everything else is skipped. -/
def insertIfCaptured (captured : Str → Option Str) (c : DataCacheS)
    (nOpt : Option Str) : DataCacheS :=
  match nOpt with
  | none => c
  | some name =>
      match captured name with
      | some s => dcInsert c name (.jstr s)
      | none => c

@[simp] theorem insertIfCaptured_reserved (captured : Str → Option Str)
    (c : DataCacheS) (nOpt : Option Str) :
    (insertIfCaptured captured c nOpt).reserved = c.reserved := by
  cases nOpt with
  | none => rfl
  | some name =>
      cases h : captured name <;> simp [insertIfCaptured, h, dcInsert, onAfterInsert]

/-- Claim C5 counterexample.  With reserved set `{"r"}` and a match in which
the named group `r` did *not* participate (`captures.name` is `none` for
every group), the loop still fails on `r`: the reserved-name set is
consulted before participation is checked, refuting "consulted only for
named capture groups that participated in the match". -/
theorem C5_counterexample :
    (matchRegexLoop { root := .jobj [], reserved := [[0x72]], cache := {} }
        (fun _ => none) [some [0x72]]).2
      = some (reservedErrMsg [0x72]) := by
  decide

/-- Claim C5 (amended): the reserved-name set is consulted for *every*
named capture group of the pattern, in the order the engine reports them
and regardless of participation.  The first reserved name fails the whole
operation immediately, and the insertions already performed for the earlier
(non-reserved, participating) groups remain applied -- the state returned
with the failure is exactly the fold of those insertions.  When no named
group is reserved the loop performs all participating insertions and
reports the match. -/
theorem C5_reserved :
    (∀ (c : DataCacheS) (captured : Str → Option Str)
        (pre rest : List (Option Str)) (name : Str),
        (∀ n : Str, some n ∈ pre → n ∉ c.reserved) → name ∈ c.reserved →
        matchRegexLoop c captured (pre ++ some name :: rest)
          = (pre.foldl (insertIfCaptured captured) c, some (reservedErrMsg name))) ∧
    (∀ (c : DataCacheS) (captured : Str → Option Str) (names : List (Option Str)),
        (∀ n : Str, some n ∈ names → n ∉ c.reserved) →
        matchRegexLoop c captured names
          = (names.foldl (insertIfCaptured captured) c, none)) := by
  constructor
  · intro c captured pre
    induction pre generalizing c with
    | nil =>
        intro rest name _ hres
        simp [matchRegexLoop, hres]
    | cons p pre' ih =>
        intro rest name hpre hres
        cases p with
        | none =>
            simp only [List.cons_append, matchRegexLoop, List.foldl_cons,
              insertIfCaptured]
            exact ih c rest name (fun n hn => hpre n (by simp [hn])) hres
        | some n =>
            have hn : n ∉ c.reserved := hpre n (by simp)
            cases hcap : captured n with
            | none =>
                simp only [List.cons_append, matchRegexLoop, if_neg hn, hcap,
                  List.foldl_cons, insertIfCaptured]
                exact ih c rest name (fun n' hn' => hpre n' (by simp [hn'])) hres
            | some s =>
                simp only [List.cons_append, matchRegexLoop, if_neg hn, hcap,
                  List.foldl_cons, insertIfCaptured]
                refine ih (dcInsert c n (.jstr s)) rest name (fun n' hn' => ?_) ?_
                · have := hpre n' (by simp [hn'])
                  simpa [dcInsert, onAfterInsert] using this
                · simpa [dcInsert, onAfterInsert] using hres
  · intro c captured names
    induction names generalizing c with
    | nil => intro _; simp [matchRegexLoop]
    | cons p rest ih =>
        intro hres
        cases p with
        | none =>
            simp only [matchRegexLoop, List.foldl_cons, insertIfCaptured]
            exact ih c (fun n hn => hres n (by simp [hn]))
        | some n =>
            have hn : n ∉ c.reserved := hres n (by simp)
            cases hcap : captured n with
            | none =>
                simp only [matchRegexLoop, if_neg hn, hcap, List.foldl_cons,
                  insertIfCaptured]
                exact ih c (fun n' hn' => hres n' (by simp [hn']))
            | some s =>
                simp only [matchRegexLoop, if_neg hn, hcap, List.foldl_cons,
                  insertIfCaptured]
                refine ih (dcInsert c n (.jstr s)) (fun n' hn' => ?_)
                have := hres n' (by simp [hn'])
                simpa [dcInsert, onAfterInsert] using this

/-- Witness for C5: reserved set `{"r"}`, groups `a` then `r`, everything
captured as `"v"`; the loop fails on `r` with `a`'s insertion applied. -/
theorem C5_reserved_witness :
    matchRegexLoop { root := .jobj [], reserved := [[0x72]], cache := {} }
        (fun _ => some [0x76]) ([some [0x61]] ++ some [0x72] :: [])
      = ([some [0x61]].foldl (insertIfCaptured (fun _ => some [0x76]))
           { root := .jobj [], reserved := [[0x72]], cache := {} },
         some (reservedErrMsg [0x72])) :=
  C5_reserved.1 { root := .jobj [], reserved := [[0x72]], cache := {} }
    (fun _ => some [0x76]) [some [0x61]] [] [0x72]
    (by intro n hn; simp at hn; subst hn; decide) (by decide)

/-! ### Claim C2: cache invalidation across mutations -/

/-- Claim C2 evidence (code bug).  Build the generation via a substitution
call, then `merge({"x": "new"})`: `DataCache::merge` mutates the tree but
does not call `on_after_insert`, so `is_built` stays `true`, the next
substitution call leaves the cached generation untouched, and the
replacement bytes still say `old` while the tree says `new` -- stale bytes
are served after a mutation, contradicting the invalidation claim. -/
theorem C2_merge_stale :
    dcInsert (DataCacheS.new []) [0x78] (.jstr (ascii "old"))
      = { root := .jobj [([0x78], .jstr (ascii "old"))], reserved := [], cache := {} } ∧
    (dcMerge (replaceWithDataCache acAlways
        { root := .jobj [([0x78], .jstr (ascii "old"))], reserved := [], cache := {} }).1
        (.jobj [([0x78], .jstr (ascii "new"))])).cache.is_built = true ∧
    (dcMerge (replaceWithDataCache acAlways
        { root := .jobj [([0x78], .jstr (ascii "old"))], reserved := [], cache := {} }).1
        (.jobj [([0x78], .jstr (ascii "new"))])).root
      = .jobj [([0x78], .jstr (ascii "new"))] ∧
    (replaceWithDataCache acAlways
        (dcMerge (replaceWithDataCache acAlways
          { root := .jobj [([0x78], .jstr (ascii "old"))], reserved := [], cache := {} }).1
          (.jobj [([0x78], .jstr (ascii "new"))]))).1
      = (dcMerge (replaceWithDataCache acAlways
          { root := .jobj [([0x78], .jstr (ascii "old"))], reserved := [], cache := {} }).1
          (.jobj [([0x78], .jstr (ascii "new"))])) ∧
    ascii "old" ∈ (dcMerge (replaceWithDataCache acAlways
        { root := .jobj [([0x78], .jstr (ascii "old"))], reserved := [], cache := {} }).1
        (.jobj [([0x78], .jstr (ascii "new"))])).cache.replacements ∧
    ascii "new" ∉ (dcMerge (replaceWithDataCache acAlways
        { root := .jobj [([0x78], .jstr (ascii "old"))], reserved := [], cache := {} }).1
        (.jobj [([0x78], .jstr (ascii "new"))])).cache.replacements := by
  refine ⟨?_, rfl, rfl, rfl, by decide, by decide⟩
  simp [dcInsert, onAfterInsert, DataCacheS.new, insertRec, splitFirstDot,
    mapLookup, mapSet, mergeRec, ascii]

/-! ### Claim C6: state after a failed automaton build -/

/-- Claim C6 counterexample.  On a fresh (unbuilt, all-unset) cache, a
failing `AhoCorasick::new` leaves the serialized buffers *stored* in the
cache fields (the `?` fires after the two assignments): the state is not
"all-unset exactly as before the call". -/
theorem C6_counterexample :
    ((replaceWithDataCache acFail (DataCacheS.new [])).1.cache.serialized).isSome
        = true ∧
    (replaceWithDataCache acFail (DataCacheS.new [])).1.cache.is_built = false ∧
    (replaceWithDataCache acFail (DataCacheS.new [])).2 = false := by
  refine ⟨by decide, rfl, rfl⟩

/-- Claim C6 (amended): when the automaton build fails inside
`replace_with_data_cache`, the call returns the failure with `is_built`
still unset and `ac`/`replacements` untouched -- so the next call rebuilds
from scratch -- but the freshly serialized buffers remain stored in
`serialized`/`double_serialized`: a partially populated generation (buffers
stored, no matcher) is observable, merely behaviourally masked by
`is_built = false`. -/
theorem C6_partial_on_failure (c : DataCacheS) (acNew : List Str → Option ACModel)
    (hbuilt : c.cache.is_built = false)
    (hfail : acNew
        ((serialize c.root true).s.key_values.map (fun kr => patSingle kr.1)
          ++ (match (serialize c.root true).d with
              | some ds => ds.key_values.map (fun kr => patDouble kr.1)
              | none => [])) = none) :
    (replaceWithDataCache acNew c).2 = false ∧
    (replaceWithDataCache acNew c).1.cache.is_built = false ∧
    (replaceWithDataCache acNew c).1.cache.ac = c.cache.ac ∧
    (replaceWithDataCache acNew c).1.cache.replacements = c.cache.replacements ∧
    (replaceWithDataCache acNew c).1.cache.serialized
      = some (serialize c.root true).s ∧
    (replaceWithDataCache acNew c).1.cache.double_serialized
      = (serialize c.root true).d := by
  simp only [replaceWithDataCache, hbuilt, Bool.false_eq_true, if_false, hfail]
  simp [hbuilt]

/-- Witness for C6: the fresh cache with the failing builder. -/
theorem C6_partial_on_failure_witness :
    (replaceWithDataCache acFail (DataCacheS.new [])).2 = false ∧
    (replaceWithDataCache acFail (DataCacheS.new [])).1.cache.is_built = false ∧
    (replaceWithDataCache acFail (DataCacheS.new [])).1.cache.ac
      = (DataCacheS.new []).cache.ac ∧
    (replaceWithDataCache acFail (DataCacheS.new [])).1.cache.replacements
      = (DataCacheS.new []).cache.replacements ∧
    (replaceWithDataCache acFail (DataCacheS.new [])).1.cache.serialized
      = some (serialize (DataCacheS.new []).root true).s ∧
    (replaceWithDataCache acFail (DataCacheS.new [])).1.cache.double_serialized
      = (serialize (DataCacheS.new []).root true).d :=
  C6_partial_on_failure (DataCacheS.new []) acFail rfl rfl

/-! ### Claim C7: the string-values map -/

/-- The string rendering `as_string_values_map` stores for one node:
scalars by their literal text, containers by their compact JSON
re-encoding. -/
def renderNode : JValue → Str
  | .jstr s => s
  | .jnum s => s
  | .jbool b => if b then ascii "true" else ascii "false"
  | .jnull => ascii "null"
  | .jarr a => jsonEncode (.jarr a)
  | .jobj o => jsonEncode (.jobj o)

mutual
/-- The `(path, node)` pairs `as_string_values_map_rec` inserts, in
insertion order: children first, then the container itself -- except an
object at the empty path, which contributes no entry of its own. -/
def nodeEntries (v : JValue) (path : Str) : List (Str × JValue) :=
  match v with
  | .jarr a => nodeEntriesItems a path 0 ++ [(path, .jarr a)]
  | .jobj o =>
      nodeEntriesMems o path ++ (if path.length > 0 then [(path, .jobj o)] else [])
  | x => [(path, x)]

def nodeEntriesMems (o : List (Str × JValue)) (path : Str) : List (Str × JValue) :=
  match o with
  | [] => []
  | (k, v) :: rest =>
      nodeEntries v (buildPrefix path ++ k) ++ nodeEntriesMems rest path

def nodeEntriesItems (a : List JValue) (path : Str) (idx : Nat) : List (Str × JValue) :=
  match a with
  | [] => []
  | el :: rest =>
      nodeEntries el (buildPrefix path ++ natToBytes idx)
        ++ nodeEntriesItems rest path (idx + 1)
end

mutual
/-- Number of reachable nodes of a tree (the node itself included). -/
def nodeCount : JValue → Nat
  | .jarr a => 1 + nodeCountItems a
  | .jobj o => 1 + nodeCountMems o
  | _ => 1

def nodeCountMems : List (Str × JValue) → Nat
  | [] => 0
  | (_, v) :: rest => nodeCount v + nodeCountMems rest

def nodeCountItems : List JValue → Nat
  | [] => 0
  | el :: rest => nodeCount el + nodeCountItems rest
end

mutual
/-- No object anywhere in the tree has a key equal to the empty string. -/
def noEmptyKey : JValue → Bool
  | .jobj o => noEmptyKeyMems o
  | .jarr a => noEmptyKeyItems a
  | _ => true

def noEmptyKeyMems : List (Str × JValue) → Bool
  | [] => true
  | (k, v) :: rest => !k.isEmpty && noEmptyKey v && noEmptyKeyMems rest

def noEmptyKeyItems : List JValue → Bool
  | [] => true
  | el :: rest => noEmptyKey el && noEmptyKeyItems rest
end

mutual
/-- `as_string_values_map_rec` is the fold of `mapSet` over the node
entries, each rendered by `renderNode`. -/
theorem asStrRec_entries (v : JValue) : ∀ (map : List (Str × Str)) (path : Str),
    asStrRec map v path
      = (nodeEntries v path).foldl (fun m e => mapSet m e.1 (renderNode e.2)) map := by
  cases v with
  | jnull => intro map path; simp [asStrRec, nodeEntries, renderNode]
  | jbool b => intro map path; simp [asStrRec, nodeEntries, renderNode]
  | jnum n => intro map path; simp [asStrRec, nodeEntries, renderNode]
  | jstr s => intro map path; simp [asStrRec, nodeEntries, renderNode]
  | jarr a =>
      intro map path
      rw [asStrRec, nodeEntries, List.foldl_append,
        asStrRecItems_entries a map path 0]
      simp [renderNode]
  | jobj o =>
      intro map path
      rw [asStrRec, nodeEntries, List.foldl_append,
        asStrRecMembers_entries o map path]
      by_cases hp : path.length > 0 <;> simp [hp, renderNode]
termination_by (sizeOf v, 1)

theorem asStrRecMembers_entries (o : List (Str × JValue)) :
    ∀ (map : List (Str × Str)) (path : Str),
      asStrRecMembers map o path
        = (nodeEntriesMems o path).foldl
            (fun m e => mapSet m e.1 (renderNode e.2)) map := by
  cases o with
  | nil => intro map path; simp [asStrRecMembers, nodeEntriesMems]
  | cons hd rest =>
      obtain ⟨k, v⟩ := hd
      intro map path
      rw [asStrRecMembers, nodeEntriesMems, List.foldl_append,
        asStrRec_entries v map (buildPrefix path ++ k),
        asStrRecMembers_entries rest _ path]
termination_by (sizeOf o, 2)

theorem asStrRecItems_entries (a : List JValue) :
    ∀ (map : List (Str × Str)) (path : Str) (idx : Nat),
      asStrRecItems map a path idx
        = (nodeEntriesItems a path idx).foldl
            (fun m e => mapSet m e.1 (renderNode e.2)) map := by
  cases a with
  | nil => intro map path idx; simp [asStrRecItems, nodeEntriesItems]
  | cons el rest =>
      intro map path idx
      rw [asStrRecItems, nodeEntriesItems, List.foldl_append,
        asStrRec_entries el map (buildPrefix path ++ natToBytes idx),
        asStrRecItems_entries rest _ path (idx + 1)]
termination_by (sizeOf a, 2)
end

mutual
/-- Entry count: one per reachable node, minus the skipped self entry of an
object sitting at the empty path; with no empty keys only the root can sit
at the empty path. -/
theorem nodeEntries_length (v : JValue) : ∀ (path : Str), noEmptyKey v = true →
    (nodeEntries v path).length
      = nodeCount v - (if v.isObj = true ∧ path = [] then 1 else 0) := by
  cases v with
  | jnull => intro path _; simp [nodeEntries, nodeCount, JValue.isObj]
  | jbool b => intro path _; simp [nodeEntries, nodeCount, JValue.isObj]
  | jnum n => intro path _; simp [nodeEntries, nodeCount, JValue.isObj]
  | jstr s => intro path _; simp [nodeEntries, nodeCount, JValue.isObj]
  | jarr a =>
      intro path hk
      have := nodeEntriesItems_length a path 0 (by simpa [noEmptyKey] using hk)
      simp [nodeEntries, nodeCount, JValue.isObj, this]
      omega
  | jobj o =>
      intro path hk
      have hm := nodeEntriesMems_length o path (by simpa [noEmptyKey] using hk)
      by_cases hp : path = []
      · subst hp
        simp [nodeEntries, nodeCount, JValue.isObj, hm]
      · have : path.length > 0 := by
          cases path with
          | nil => simp at hp
          | cons b bs => simp
        simp [nodeEntries, nodeCount, JValue.isObj, hm, hp, this]
        omega
termination_by (sizeOf v, 1)

theorem nodeEntriesMems_length (o : List (Str × JValue)) :
    ∀ (path : Str), noEmptyKeyMems o = true →
      (nodeEntriesMems o path).length = nodeCountMems o := by
  cases o with
  | nil => intro path _; simp [nodeEntriesMems, nodeCountMems]
  | cons hd rest =>
      obtain ⟨k, v⟩ := hd
      intro path hk
      simp only [noEmptyKeyMems, Bool.and_eq_true, Bool.not_eq_true'] at hk
      obtain ⟨⟨hke, hkv⟩, hkrest⟩ := hk
      have hkne : k ≠ [] := by
        intro hcon; rw [hcon] at hke; simp at hke
      have hpath : buildPrefix path ++ k ≠ [] := by
        intro hcon
        rcases List.append_eq_nil.mp hcon with ⟨-, h2⟩
        exact hkne h2
      have hchild := nodeEntries_length v (buildPrefix path ++ k) hkv
      rw [if_neg (by intro hcon; exact hpath hcon.2)] at hchild
      have hrest := nodeEntriesMems_length rest path hkrest
      simp [nodeEntriesMems, nodeCountMems, hchild, hrest]
termination_by (sizeOf o, 2)

theorem nodeEntriesItems_length (a : List JValue) :
    ∀ (path : Str) (idx : Nat), noEmptyKeyItems a = true →
      (nodeEntriesItems a path idx).length = nodeCountItems a := by
  cases a with
  | nil => intro path idx _; simp [nodeEntriesItems, nodeCountItems]
  | cons el rest =>
      intro path idx hk
      simp only [noEmptyKeyItems, Bool.and_eq_true] at hk
      have hpath : buildPrefix path ++ natToBytes idx ≠ [] := by
        intro hcon
        rcases List.append_eq_nil.mp hcon with ⟨-, h2⟩
        exact natToBytes_ne_nil idx h2
      have hchild := nodeEntries_length el (buildPrefix path ++ natToBytes idx) hk.1
      rw [if_neg (by intro hcon; exact hpath hcon.2)] at hchild
      have hrest := nodeEntriesItems_length rest path (idx + 1) hk.2
      simp [nodeEntriesItems, nodeCountItems, hchild, hrest]
termination_by (sizeOf a, 2)
end

theorem mapSet_length_not_mem {α : Type} (m : List (Str × α)) (k : Str) (v : α)
    (h : mapLookup m k = none) : (mapSet m k v).length = m.length + 1 := by
  induction m with
  | nil => simp [mapSet]
  | cons hd tl ih =>
      obtain ⟨k', v'⟩ := hd
      by_cases hk : k' = k
      · simp [mapLookup, hk] at h
      · simp [mapLookup, hk] at h
        simp [mapSet, hk, ih h]

theorem mapLookup_mapSet_ne {α : Type} (m : List (Str × α)) (k k' : Str) (v : α)
    (h : k' ≠ k) : mapLookup (mapSet m k v) k' = mapLookup m k' := by
  induction m with
  | nil =>
      have hne : ¬(k = k') := fun hc => h hc.symm
      simp [mapSet, mapLookup, hne]
  | cons hd tl ih =>
      obtain ⟨k0, v0⟩ := hd
      by_cases hk : k0 = k
      · subst hk
        have hne : ¬(k0 = k') := fun hc => h hc.symm
        simp [mapSet, mapLookup, hne]
      · simp [mapSet, mapLookup, hk, ih]

theorem foldl_mapSet_length (entries : List (Str × JValue)) :
    ∀ (map : List (Str × Str)),
      (entries.map Prod.fst).Nodup →
      (∀ e ∈ entries, mapLookup map e.1 = none) →
      (entries.foldl (fun m e => mapSet m e.1 (renderNode e.2)) map).length
        = map.length + entries.length := by
  induction entries with
  | nil => intro map _ _; simp
  | cons e rest ih =>
      intro map hnd hnone
      simp only [List.map_cons, List.nodup_cons] at hnd
      simp only [List.foldl_cons]
      rw [ih (mapSet map e.1 (renderNode e.2)) hnd.2 ?_]
      · rw [mapSet_length_not_mem map e.1 _ (hnone e (by simp))]
        simp
        omega
      · intro e' he'
        rw [mapLookup_mapSet_ne]
        · exact hnone e' (by simp [he'])
        · intro hcon
          exact hnd.1 (by rw [← hcon]; exact List.mem_map_of_mem Prod.fst he')

/-- Claim C7 counterexample.  A scalar root is a non-array root, yet it
*does* contribute an entry for itself (at the empty path): for the root
`null` the map has 1 entry while the claim predicts
`nodeCount - 1 = 0`. -/
theorem C7_counterexample :
    (asStringValuesMap .jnull).length = 1 ∧ nodeCount .jnull - 1 = 0 := by
  exact ⟨rfl, rfl⟩

/-- Claim C7 (amended): the map is exactly the insertion fold of one
rendered entry per reachable node (scalars by literal text, containers by
compact JSON), keyed by dotted path; only an *object* root skips its own
entry -- array and scalar roots both contribute one -- and the length law
`|map| = nodeCount - (1 if object root else 0)` holds for trees without
empty object keys whose node paths are pairwise distinct (path collisions
collapse entries, empty keys make deeper objects sit at the empty path). -/
theorem C7_string_map :
    (∀ v : JValue, asStringValuesMap v
        = (nodeEntries v []).foldl (fun m e => mapSet m e.1 (renderNode e.2)) []) ∧
    (∀ v : JValue, noEmptyKey v = true →
        ((nodeEntries v []).map Prod.fst).Nodup →
        (asStringValuesMap v).length
          = nodeCount v - (if v.isObj then 1 else 0)) := by
  have h1 : ∀ v : JValue, asStringValuesMap v
      = (nodeEntries v []).foldl (fun m e => mapSet m e.1 (renderNode e.2)) [] :=
    fun v => asStrRec_entries v [] []
  refine ⟨h1, ?_⟩
  intro v hk hnd
  rw [h1 v, foldl_mapSet_length _ [] hnd (fun e _ => rfl),
    nodeEntries_length v [] hk]
  simp

/-- Witness for C7 at the tree `{"a": null}`: two reachable nodes, an
object root, one map entry. -/
theorem C7_string_map_witness :
    noEmptyKey (.jobj [([0x61], .jnull)]) = true ∧
    ((nodeEntries (.jobj [([0x61], .jnull)]) []).map Prod.fst).Nodup ∧
    (asStringValuesMap (.jobj [([0x61], .jnull)])).length
      = nodeCount (.jobj [([0x61], .jnull)])
        - (if (JValue.jobj [([0x61], .jnull)]).isObj then 1 else 0) :=
  ⟨by decide, by decide, C7_string_map.2 (.jobj [([0x61], .jnull)]) (by decide) (by decide)⟩
